import Mathlib

/-!
Verification development for the three-pages book API.

This file gives a shallow embedding, in Lean 4, of the two algorithmic cores
of the repository: the multi-source book aggregation and deduplication engine
(src/apps/api/src/services/books/aggregator.rs) and the hierarchical text
summarization pipeline (src/apps/api/src/services/huggingface/summarizer.rs),
together with theorems settling the documented behavioural properties.

Modelling conventions:
* Rust String values are Lean String values; the Rust iterator pipelines over
  characters (split, trim, to_lowercase, contains, starts_with, replace) are
  embedded as total recursive functions over the underlying character list.
  Character classes (whitespace, alphanumeric, lower-casing) use the Lean
  ASCII-level primitives, which agree with the Rust ones on all inputs used
  by the theorems below.
* The fallible external calls (HTTP summarization backend, catalog adapters)
  are embedded as explicit function-valued parameters returning Option or
  Except values; none is an error result.
* The f32 completeness and relevance scores in the aggregator are sums of the
  fixed decimal weights 0.1 .. 10.0 from the source; they are embedded as
  exact natural numbers scaled by 10, preserving all comparisons.
* The Rust HashMap grouping in the deduplicator has unspecified iteration
  order; it is embedded as grouping in first-occurrence order (the entry
  insertion order), and the stable sort_by calls are embedded with the
  stable List.insertionSort.
-/

/-! ## Generic string utilities mirroring the Rust standard library -/

/-- Split a character list at every character satisfying p, keeping empty
pieces, like the Rust str split with a char class pattern. The accumulator
holds the current piece in reverse. -/
def splitOnPredAux (p : Char → Bool) : List Char → List Char → List (List Char)
  | [], acc => [acc.reverse]
  | c :: cs, acc =>
    if p c then acc.reverse :: splitOnPredAux p cs []
    else splitOnPredAux p cs (c :: acc)

def splitOnPred (p : Char → Bool) (l : List Char) : List (List Char) :=
  splitOnPredAux p l []

/-- Rust str split_whitespace: split on whitespace and drop empty pieces. -/
def splitWhitespaceStr (s : String) : List String :=
  ((splitOnPred Char.isWhitespace s.data).filter (fun w => w ≠ [])).map String.mk

/-- Rust split_whitespace().count(), the word count used by the summarizer. -/
def wordCount (s : String) : Nat :=
  (splitWhitespaceStr s).length

/-- Rust str trim: drop leading and trailing whitespace. -/
def trimChars (l : List Char) : List Char :=
  ((l.dropWhile Char.isWhitespace).reverse.dropWhile Char.isWhitespace).reverse

def strTrim (s : String) : String :=
  String.mk (trimChars s.data)

/-- Rust str to_lowercase (ASCII fragment). -/
def toLowerStr (s : String) : String :=
  String.mk (s.data.map Char.toLower)

/-- Rust str starts_with. -/
def startsWithStr (s pre : String) : Bool :=
  pre.data.isPrefixOf s.data

/-- Substring occurrence test on character lists. -/
def listContainsSub (hay needle : List Char) : Bool :=
  needle.isPrefixOf hay ||
    match hay with
    | [] => false
    | _ :: t => listContainsSub t needle

/-- Rust str contains with a string pattern. -/
def containsSubstr (s pat : String) : Bool :=
  listContainsSub s.data pat.data

/-- Rust Vec join / slice join with a string separator. -/
def joinSep (sep : String) : List String → String
  | [] => ""
  | [x] => x
  | x :: y :: xs => x ++ sep ++ joinSep sep (y :: xs)

/-- Drop one trailing empty piece, as Rust str lines does after splitting. -/
def dropTrailingEmpty (l : List (List Char)) : List (List Char) :=
  match l.getLast? with
  | some [] => l.dropLast
  | _ => l

/-- Strip one trailing carriage return, as Rust str lines does per line. -/
def stripCR (l : List Char) : List Char :=
  match l.getLast? with
  | some '\r' => l.dropLast
  | _ => l

/-- Rust str lines. -/
def linesOf (s : String) : List String :=
  (dropTrailingEmpty (splitOnPred (fun c => c = '\n') s.data)).map
    (fun l => String.mk (stripCR l))

/-- Split a character list on every non-overlapping occurrence of two
consecutive newline characters, like Rust str split with pattern double
newline. -/
def splitNNAux : List Char → List Char → List (List Char)
  | '\n' :: '\n' :: rest, acc => acc.reverse :: splitNNAux rest []
  | c :: rest, acc => splitNNAux rest (c :: acc)
  | [], acc => [acc.reverse]

def splitNNStr (s : String) : List String :=
  (splitNNAux s.data []).map String.mk

/-- Rust slice chunks with positive group size, via a structural fuel bound. -/
def listChunksGo (n : Nat) : Nat → List α → List (List α)
  | _, [] => []
  | 0, l => [l]
  | fuel + 1, l => if n = 0 then [l] else l.take n :: listChunksGo n fuel (l.drop n)

def listChunks (n : Nat) (l : List α) : List (List α) :=
  listChunksGo n l.length l

/-- Rust str replace with a string pattern, via a structural fuel bound. -/
def replaceAllGo (pat rep : List Char) : Nat → List Char → List Char
  | _, [] => []
  | 0, l => l
  | fuel + 1, c :: rest =>
    if pat ≠ [] ∧ pat.isPrefixOf (c :: rest) then
      rep ++ replaceAllGo pat rep fuel ((c :: rest).drop pat.length)
    else
      c :: replaceAllGo pat rep fuel rest

def replaceAllStr (s pat rep : String) : String :=
  String.mk (replaceAllGo pat.data rep.data s.data.length s.data)

/-- Character-level counterpart of joinSep, for reasoning about joins. -/
def joinSepChars (sep : List Char) : List (List Char) → List Char
  | [] => []
  | [x] => x
  | x :: y :: xs => x ++ sep ++ joinSepChars sep (y :: xs)

/-- Character-level word count. -/
def wcChars (l : List Char) : Nat :=
  ((splitOnPred Char.isWhitespace l).filter (fun w => w ≠ [])).length

/-- Rust str parse into i32: optional sign, decimal digits, range check. -/
def parseI32 (s : String) : Option Int :=
  let signAndDigits : Int × List Char :=
    match s.data with
    | '+' :: rest => (1, rest)
    | '-' :: rest => (-1, rest)
    | l => (1, l)
  let sign := signAndDigits.1
  let digits := signAndDigits.2
  if digits = [] ∨ digits.any (fun c => ¬ c.isDigit) then none
  else
    let magnitude : Nat := digits.foldl (fun acc c => acc * 10 + (c.toNat - 48)) 0
    let v : Int := sign * (magnitude : Int)
    if v < -2147483648 ∨ 2147483647 < v then none else some v

/-! ## Summarization pipeline (services/huggingface/summarizer.rs)

The HuggingFace client is embedded as a record of fallible functions; a none
result models an Err return from the HTTP layer. -/

structure Backend where
  summarizeBart : String → String → Nat → Nat → Option String
  textGeneration : String → String → Option String

def SUMMARIZATION_MODEL : String := "facebook/bart-large-cnn"

def MULTILINGUAL_MODEL : String := "facebook/mbart-large-50-many-to-many-mmt"

def get_language_name (code : String) : String :=
  match code with
  | "de" => "German"
  | "ta" => "Tamil"
  | _ => "English"

def get_academic_style_instruction (language : String) : String :=
  match language with
  | "de" => "Verwenden Sie einen akademischen und formalen Ton mit tiefgreifender Analyse."
  | "ta" => "ஆழமான பகுப்பாய்வுடன் கல்வி மற்றும் முறையான தொனியைப் பயன்படுத்தவும்."
  | _ => "Use an academic and formal tone with in-depth analysis."

def get_simple_style_instruction (language : String) : String :=
  match language with
  | "de" => "Verwenden Sie eine einfache und klare Sprache, die leicht zu verstehen ist."
  | "ta" => "புரிந்துகொள்ள எளிதான எளிய மற்றும் தெளிவான மொழியைப் பயன்படுத்தவும்."
  | _ => "Use simple and clear language that is easy to understand."

def get_detailed_style_instruction (language : String) : String :=
  match language with
  | "de" => "Bieten Sie eine umfassende und ausführliche Abdeckung des Inhalts."
  | "ta" => "உள்ளடக்கத்தின் விரிவான மற்றும் முழுமையான கவரேஜை வழங்கவும்."
  | _ => "Provide comprehensive and thorough coverage of the content."

def get_concise_style_instruction (language : String) : String :=
  match language with
  | "de" => "Seien Sie kurz und auf den Punkt, erfassen Sie nur das Wesentliche."
  | "ta" => "சுருக்கமாகவும் புள்ளிக்கும் இருங்கள், அத்தியாவசியமானவற்றை மட்டும் கைப்பற்றவும்."
  | _ => "Be brief and to the point, capturing only the essentials."

def get_fallback_message (language : String) : String :=
  match language with
  | "de" => "Kein Inhalt zum Zusammenfassen verfügbar."
  | "ta" => "சுருக்கத்திற்கு எந்த உள்ளடக்கமும் இல்லை."
  | _ => "No content available for summarization."

def create_language_prompt (text language style : String) (target_words : Nat) : String :=
  let language_instructions :=
    match language with
    | "de" => "Erstellen Sie eine detaillierte Zusammenfassung von etwa " ++
        toString target_words ++ " Wörtern des folgenden Textes auf Deutsch:"
    | "ta" => "பின்வரும் உரையின் தமிழில் சுமார் " ++ toString target_words ++
        " வார்த்தைகளின் விரிவான சுருக்கத்தை உருவாக்கவும்:"
    | _ => "Create a detailed summary of approximately " ++ toString target_words ++
        " words of the following text:"
  let style_instruction :=
    match style with
    | "academic" => get_academic_style_instruction language
    | "simple" => get_simple_style_instruction language
    | "detailed" => get_detailed_style_instruction language
    | _ => get_concise_style_instruction language
  language_instructions ++ "\n\n" ++ style_instruction ++ "\n\nText: " ++ text

/-- Clean summary output: trim, drop blank lines, trim each line. -/
def clean_summary (summary : String) : String :=
  joinSep "\n"
    (((linesOf (strTrim summary)).map strTrim).filter (fun line => line ≠ ""))

/-- Extractive fallback summary for very short content. -/
def fallback_summary (content : String) : String :=
  let sentences :=
    (((splitOnPred (fun c => c = '.' ∨ c = '!' ∨ c = '?') content.data).map
        String.mk).filter (fun s =>
      let trimmed := strTrim s
      20 < trimmed.data.length ∧ ¬ containsSubstr trimmed "Project Gutenberg" ∧
        ¬ startsWithStr trimmed "CHAPTER")).take 15
  if sentences = [] then
    "This literary work offers engaging storytelling with memorable characters and explores meaningful themes that resonate with readers."
  else
    strTrim (joinSep ". " sentences) ++ "."

def hasStartMarker (line : String) : Bool :=
  containsSubstr line "*** START OF" && containsSubstr line "PROJECT GUTENBERG"

def hasEndMarker (line : String) : Bool :=
  containsSubstr line "*** END OF" && containsSubstr line "PROJECT GUTENBERG"

def isChapterHeading (line : String) : Bool :=
  startsWithStr line "CHAPTER" || startsWithStr line "Chapter"

/-- First loop of clean_project_gutenberg_text: find the start of content. -/
def findStartIdxAux : Nat → List String → Nat
  | _, [] => 0
  | i, line :: rest =>
    if hasStartMarker line then i + 1
    else if isChapterHeading line then i
    else findStartIdxAux (i + 1) rest

def findStartIdx (lines : List String) : Nat :=
  findStartIdxAux 0 lines

/-- Second loop of clean_project_gutenberg_text: last end marker, scanning
from the end, defaulting to the line count. -/
def findEndIdx (lines : List String) : Nat :=
  match (lines.enum.filter (fun p => hasEndMarker p.2)).getLast? with
  | some p => p.1
  | none => lines.length

def keepCleanLine (line : String) : Bool :=
  let trimmed := strTrim line
  trimmed ≠ "" && ¬ startsWithStr trimmed "Produced by" &&
    ¬ startsWithStr trimmed "Updated:" && ¬ containsSubstr trimmed "gutenberg.org" &&
    ¬ startsWithStr trimmed "[Illustration"

/-- Clean Project Gutenberg headers and footers (the Text Normalizer). -/
def clean_project_gutenberg_text (content : String) : String :=
  let lines := linesOf content
  let start_idx := findStartIdx lines
  let end_idx := findEndIdx lines
  if start_idx < end_idx then
    joinSep "\n"
      ((((lines.drop start_idx).take (end_idx - start_idx)).filter keepCleanLine).map strTrim)
  else content

/-- Split text into sentences on sentence-final punctuation, dropping blank
pieces. -/
def split_into_sentences (text : String) : List String :=
  ((splitOnPred (fun c => c = '.' ∨ c = '!' ∨ c = '?') text.data).map String.mk).filter
    (fun s => strTrim s ≠ "")

/-- Inner sentence-accumulation loop of smart_chunk_by_paragraphs; returns
the sentence groups, each later joined with a single space. -/
def sentLoop (tw : Nat) : List String → List String → Nat → List (List String)
  | [], acc, _ => if acc = [] then [] else [acc]
  | s :: rest, acc, cnt =>
    let sw := wordCount s
    if tw < cnt + sw ∧ acc ≠ [] then acc :: sentLoop tw rest [s] sw
    else sentLoop tw rest (acc ++ [s]) (cnt + sw)

/-- Main paragraph-accumulation loop of smart_chunk_by_paragraphs. -/
def paraLoop (tw : Nat) : List String → List String → Nat → List String
  | [], current, _ => if current = [] then [] else [joinSep "\n\n" current]
  | p :: rest, current, cnt =>
    let pw := wordCount p
    if tw < pw then
      (if current = [] then [] else [joinSep "\n\n" current]) ++
        (sentLoop tw (split_into_sentences p) [] 0).map (joinSep " ") ++
        paraLoop tw rest [] 0
    else if tw < cnt + pw ∧ current ≠ [] then
      joinSep "\n\n" current :: paraLoop tw rest [p] pw
    else paraLoop tw rest (current ++ [p]) (cnt + pw)

/-- Fallback chunking by fixed-size word groups. -/
def fallback_chunk_by_words (text : String) (target_words : Nat) : List String :=
  let words := splitWhitespaceStr text
  if words.length ≤ target_words then [text]
  else (listChunks target_words words).map (joinSep " ")

/-- Smart chunking by paragraphs (the Chunker). -/
def smart_chunk_by_paragraphs (text : String) (target_words : Nat) : List String :=
  let paragraphs := (splitNNStr text).filter (fun p => strTrim p ≠ "")
  if paragraphs = [] then fallback_chunk_by_words text target_words
  else paraLoop target_words paragraphs [] 0

/-- Fallback multilingual summarization via BART with a language instruction. -/
def fallback_multilingual_summary (be : Backend) (text language : String)
    (target_tokens min_tokens : Nat) : Option String :=
  let fallback_prompt := "Please summarize the following text in " ++
    get_language_name language ++ " language:\n\n" ++ text
  be.summarizeBart SUMMARIZATION_MODEL fallback_prompt target_tokens min_tokens

/-- Multilingual summarization with prompt construction and model fallback. -/
def multilingual_summarize (be : Backend) (text language style : String)
    (target_tokens min_tokens : Nat) : Option String :=
  if wordCount text < 100 then
    let simple_prompt := "Summarize the following text in " ++
      get_language_name language ++ ":\n\n" ++ text
    be.summarizeBart SUMMARIZATION_MODEL simple_prompt target_tokens min_tokens
  else
    let prompt := create_language_prompt text language style target_tokens
    match be.textGeneration MULTILINGUAL_MODEL prompt with
    | some result =>
      let cleaned := clean_summary result
      if 10 < wordCount cleaned then some cleaned
      else fallback_multilingual_summary be text language target_tokens min_tokens
    | none => fallback_multilingual_summary be text language target_tokens min_tokens

/-- One summarization attempt for a single chunk. -/
def chunkCall (be : Backend) (language style chunk : String) : Option String :=
  if language = "en" then be.summarizeBart SUMMARIZATION_MODEL chunk 200 50
  else multilingual_summarize be chunk language style 200 50

/-- Per-chunk loop of summarize_chunks: a failed chunk is skipped, a summary
that cleans to the empty string is dropped. -/
def chunksLoop (be : Backend) (language style : String) : List String → List String
  | [] => []
  | chunk :: rest =>
    match chunkCall be language style chunk with
    | some summary =>
      let cleaned := clean_summary summary
      if cleaned ≠ "" then cleaned :: chunksLoop be language style rest
      else chunksLoop be language style rest
    | none => chunksLoop be language style rest

/-- Summarize individual chunks, capped at four chunks. -/
def summarize_chunks (be : Backend) (chunks : List String) (language style : String) :
    Option (List String) :=
  let max_chunks := min 4 chunks.length
  some (chunksLoop be language style (chunks.take max_chunks))

/-- Main entry point for book summarization. -/
def summarize (be : Backend) (content language style : String) : Option String :=
  if content = "" then some (get_fallback_message language)
  else
    let cleaned_content := clean_project_gutenberg_text content
    let word_count := wordCount cleaned_content
    if word_count ≤ 2000 then
      if language = "en" then
        be.summarizeBart SUMMARIZATION_MODEL cleaned_content 800 200
      else multilingual_summarize be cleaned_content language style 800 200
    else
      let chunks := smart_chunk_by_paragraphs cleaned_content 1500
      if chunks = [] then some (fallback_summary cleaned_content)
      else
        match summarize_chunks be chunks language style with
        | none => none
        | some chunk_summaries =>
          if chunk_summaries = [] then some (fallback_summary cleaned_content)
          else
            let combined_summaries := joinSep "\n\n" chunk_summaries
            let final_summary :=
              if language = "en" then
                (be.summarizeBart SUMMARIZATION_MODEL combined_summaries 1200 300).getD
                  (fallback_summary combined_summaries)
              else
                (multilingual_summarize be combined_summaries language style 1200 300).getD
                  (fallback_summary combined_summaries)
            some final_summary

/-! ## Book aggregation (services/books/aggregator.rs, models/book.rs) -/

inductive BookSource where
  | google
  | openLibrary
  | gutenberg
deriving DecidableEq, Repr

structure Book where
  id : String
  title : String
  authors : List String
  description : Option String
  isbn : Option String
  publisher : Option String
  published_date : Option String
  page_count : Option Int
  language : Option String
  cover_url : Option String
  preview_link : Option String
  source : BookSource
deriving DecidableEq, Repr

inductive AppError where
  | BookNotFound (msg : String)
  | InvalidInput (msg : String)
  | ExternalApi (msg : String)
deriving DecidableEq, Repr

/-- Normalize a string for deduplication: lower-case, trim, strip the fixed
punctuation set, keep only alphanumeric characters. -/
def normalize_string (s : String) : String :=
  String.mk
    (((trimChars (toLowerStr s).data).filter (fun c =>
        ¬ c ∈ [' ', '-', '_', ':', '.', ',', ';', '(', ')', '[', ']'])).filter
      Char.isAlphanum)

/-- Deduplication key: normalized title and normalized primary author. -/
def create_dedup_key (book : Book) : String :=
  let title := normalize_string book.title
  let author := if book.authors = [] then "" else normalize_string book.authors.head!
  title ++ "|" ++ author

/-- Source priority: lower is higher priority. -/
def get_source_priority (source : BookSource) : Nat :=
  match source with
  | .gutenberg => 1
  | .openLibrary => 2
  | .google => 3

/-- Completeness score; the f32 weights of the source scaled by 10 into Nat. -/
def calculate_completeness_score (book : Book) : Nat :=
  (if book.title ≠ "" then 10 else 0) +
    (if book.authors ≠ [] then 10 else 0) +
    (if book.isbn.isSome then 5 else 0) +
    (if book.cover_url.isSome then 3 else 0) +
    (if book.description.isSome then 7 else 0) +
    (if book.published_date.isSome then 2 else 0) +
    (if book.language.isSome then 2 else 0) +
    (if book.page_count.isSome then 1 else 0)

/-- Relevance score; the f32 weights of the source scaled by 10 into Nat. -/
def calculate_relevance_score (book : Book) (query : String) : Nat :=
  let query_lower := toLowerStr query
  let title_lower := toLowerStr book.title
  let titleScore :=
    if containsSubstr title_lower query_lower then
      100 + (if title_lower = query_lower then 50 else 0) +
        (if startsWithStr title_lower query_lower then 30 else 0)
    else 0
  let authorScore :=
    (book.authors.map (fun author =>
      let author_lower := toLowerStr author
      if containsSubstr author_lower query_lower then
        80 + (if author_lower = query_lower then 40 else 0)
      else 0)).sum
  let descScore :=
    match book.description with
    | some desc => if containsSubstr (toLowerStr desc) query_lower then 20 else 0
    | none => 0
  let sourceScore :=
    match book.source with
    | .gutenberg => 30
    | .openLibrary => 20
    | .google => 10
  let qualityScore :=
    (if book.cover_url.isSome then 5 else 0) +
      (if book.description.isSome then 5 else 0) +
      (if book.isbn.isSome then 3 else 0)
  titleScore + authorScore + descScore + sourceScore + qualityScore

/-- The within-group comparator of deduplicate_and_prioritize: source
priority ascending, then completeness descending. -/
def cmpGroupBooks (a b : Book) : Ordering :=
  let a_priority := get_source_priority a.source
  let b_priority := get_source_priority b.source
  if a_priority ≠ b_priority then compare a_priority b_priority
  else compare (calculate_completeness_score b) (calculate_completeness_score a)

/-- Rust sort_by places a before b when the comparator does not return
Greater; this is the corresponding order relation for the group sort. -/
def groupLE (a b : Book) : Prop :=
  cmpGroupBooks a b ≠ Ordering.gt

instance : DecidableRel groupLE := fun a b => by
  unfold groupLE
  infer_instance

/-- The final comparator of deduplicate_and_prioritize: relevance to the
query, descending. -/
def cmpRelBooks (query : String) (a b : Book) : Ordering :=
  compare (calculate_relevance_score b query) (calculate_relevance_score a query)

def relLE (query : String) (a b : Book) : Prop :=
  cmpRelBooks query a b ≠ Ordering.gt

instance (query : String) : DecidableRel (relLE query) := fun a b => by
  unfold relLE
  infer_instance

/-- Append a book to the group holding its key, or open a new group at the
end; this is the HashMap entry-or-insert-push of the source, determinized in
first-occurrence order. -/
def groupInsert (k : String) (b : Book) : List (String × List Book) → List (String × List Book)
  | [] => [(k, [b])]
  | (k', g) :: rest =>
    if k' = k then (k', g ++ [b]) :: rest
    else (k', g) :: groupInsert k b rest

/-- Group books by deduplication key, in first-occurrence order. -/
def groupByKey (books : List Book) : List (String × List Book) :=
  books.foldl (fun acc b => groupInsert (create_dedup_key b) b acc) []

/-- Deduplicate and prioritize: group by key, keep the best book of each
group (stable sort by the group comparator, then the first element), then
stable-sort the survivors by relevance descending. -/
def deduplicate_and_prioritize (books : List Book) (query : String) : List Book :=
  let groups := groupByKey books
  let deduplicated := groups.filterMap (fun kg => (List.insertionSort groupLE kg.2).head?)
  List.insertionSort (relLE query) deduplicated

/-! ## Book detail resolution (aggregator.rs get_book_details) -/

/-- The three source adapters and the secondary Internet Archive lookup,
embedded as fallible oracles. -/
structure Adapters where
  googleById : String → Except AppError (Option Book)
  openLibraryById : String → Except AppError (Option Book)
  gutenbergById : Int → Except AppError (Option Book)
  openLibraryIA : String → Except AppError (Option String)

/-- The id split of get_book_details: split on the colon separator. -/
def idParts (id : String) : List String :=
  (splitOnPred (fun c => c = ':') id.data).map String.mk

/-- Enrich a book into a BookDetail with a content location. -/
structure BookDetail where
  book : Book
  content_url : Option String
  gutenberg_id : Option Int
deriving DecidableEq, Repr

def enrich_book_detail (ad : Adapters) (book : Book) : BookDetail :=
  let content_url :=
    match book.source with
    | .gutenberg =>
      let id := replaceAllStr book.id "gutenberg:" ""
      some ("https://www.gutenberg.org/files/" ++ id ++ "/" ++ id ++ "-0.txt")
    | .openLibrary =>
      let ol_key := replaceAllStr book.id "openlibrary:" ""
      match ad.openLibraryIA ol_key with
      | .ok (some ia_id) =>
        some ("https://archive.org/download/" ++ ia_id ++ "/" ++ ia_id ++ ".txt")
      | _ => none
    | .google => none
  let gutenberg_id :=
    if book.source = .gutenberg then parseI32 (replaceAllStr book.id "gutenberg:" "")
    else none
  ⟨book, content_url, gutenberg_id⟩

def get_book_details (ad : Adapters) (id : String) : Except AppError (Option BookDetail) :=
  match idParts id with
  | [source, book_id] =>
    let fetched : Except AppError (Option Book) :=
      match source with
      | "google" => ad.googleById book_id
      | "openlibrary" => ad.openLibraryById book_id
      | "gutenberg" =>
        match parseI32 book_id with
        | none => Except.error (AppError.InvalidInput "Invalid Gutenberg ID")
        | some gid => ad.gutenbergById gid
      | _ => Except.error (AppError.InvalidInput "Unknown book source")
    match fetched with
    | .error e => .error e
    | .ok none => .ok none
    | .ok (some book) => .ok (some (enrich_book_detail ad book))
  | _ => Except.error (AppError.InvalidInput "Invalid book ID format")

/-! ## Proof-support definitions -/

/-- The keys of a group list. -/
def keysOf (gl : List (String × List Book)) : List String :=
  gl.map Prod.fst

/-- The group stored under a key (first match), or the empty group. -/
def lookG (k : String) : List (String × List Book) → List Book
  | [] => []
  | (k', g) :: rest => if k' = k then g else lookG k rest

/-- Well-formedness of a group list: groups are non-empty and homogeneous in
their key. -/
def GroupsWF (gl : List (String × List Book)) : Prop :=
  ∀ kg ∈ gl, kg.2 ≠ [] ∧ ∀ b ∈ kg.2, create_dedup_key b = kg.1

/-- The per-group survivors picked by deduplicate_and_prioritize before the
final relevance sort. -/
def groupsSurvivors (gl : List (String × List Book)) : List Book :=
  gl.filterMap (fun kg => (List.insertionSort groupLE kg.2).head?)

/-- deduplicate_and_prioritize with the HashMap iteration order exposed. The
Rust HashMap built by the grouping loop presents its entries in an
unspecified, per-instance randomized order, so every permutation of the
grouped entries is a possible input to the survivor selection and the final
relevance sort; groupByKey is the determinization of that order to
first-occurrence order, and dedupFromGroups is the rest of the function. -/
def dedupFromGroups (gl : List (String × List Book)) (query : String) : List Book :=
  List.insertionSort (relLE query) (groupsSurvivors gl)

/-! ## Concrete inputs used by witnesses and counterexamples -/

/-- A backend on which every call fails. -/
def failBackend : Backend :=
  ⟨fun _ _ _ _ => none, fun _ _ => none⟩

/-- A backend that reports back the requested target and min lengths. -/
def spyBackend : Backend :=
  ⟨fun _ _ max_length min_length => some (toString max_length ++ "/" ++ toString min_length),
   fun _ _ => none⟩

/-- A backend on which exactly the final (target 1200) call fails. -/
def finalFailBackend : Backend :=
  ⟨fun _ _ max_length _ =>
      if max_length = 1200 then none else some "This chunk level summary text survived",
   fun _ _ => none⟩

/-- Characters of an n+1 word text: n copies of a word and a space, then one
more word. -/
def repChars (n : Nat) : List Char :=
  (List.replicate n ['a', ' ']).flatten ++ ['a']

/-- A 2001-word text. -/
def bigChars : List Char :=
  repChars 2000

def bigText : String :=
  String.mk bigChars

/-- The Dune scenario book from the primary catalog. -/
def bookCatalogA : Book :=
  ⟨"google:1", "Dune", ["Frank Herbert"], none, none, none, none, none, none, none, none,
    .google⟩

/-- The Dune scenario book from the full-text catalog. -/
def bookFullText : Book :=
  ⟨"gutenberg:2", "dune", ["Frank Herbert"], none, none, none, none, none, none, none, none,
    .gutenberg⟩

/-- Two same-key books from the same source with equal completeness but
different content. -/
def tieBook1 : Book :=
  ⟨"google:10", "Dune", ["Frank Herbert"], some "First description", none, none, none, none,
    none, none, none, .google⟩

def tieBook2 : Book :=
  ⟨"google:11", "Dune", ["Frank Herbert"], some "Second description", none, none, none, none,
    none, none, none, .google⟩

/-- Two books with distinct deduplication keys but equal relevance to the
query dune: neither title nor author mentions the query, neither has a
description, cover or isbn, and both come from the same source, so only the
source score (30) contributes to either relevance score. -/
def relTieBookA : Book :=
  ⟨"gutenberg:100", "Alpha", ["Writer One"], none, none, none, none, none, none, none, none,
    .gutenberg⟩

def relTieBookB : Book :=
  ⟨"gutenberg:101", "Beta", ["Writer Two"], none, none, none, none, none, none, none, none,
    .gutenberg⟩

/-- Adapters whose every lookup succeeds with no result. -/
def trivialAdapters : Adapters :=
  ⟨fun _ => .ok none, fun _ => .ok none, fun _ => .ok none, fun _ => .ok none⟩

/-- A lone Project Gutenberg start-marker line: the computed start index (1)
is not below the computed end index (1), so no valid window exists. -/
def gutenbergMarkerLine : String :=
  "*** START OF THE PROJECT GUTENBERG EBOOK"

/-! ## Supporting lemmas: the two sort orders of the deduplicator -/

theorem groupLE_iff (a b : Book) :
    groupLE a b ↔
      (get_source_priority a.source < get_source_priority b.source ∨
        (get_source_priority a.source = get_source_priority b.source ∧
          calculate_completeness_score b ≤ calculate_completeness_score a)) := by
  unfold groupLE cmpGroupBooks
  by_cases h : get_source_priority a.source = get_source_priority b.source
  · simp only [h, ne_eq, not_true_eq_false, if_false, Ne, Nat.compare_eq_gt]
    simp [Nat.not_lt]
  · simp only [ne_eq, h, not_false_eq_true, if_true, Ne, Nat.compare_eq_gt, false_and,
      or_false, Nat.not_lt]
    exact ⟨fun hle => Nat.lt_of_le_of_ne hle h, Nat.le_of_lt⟩

theorem groupLE_total (a b : Book) : groupLE a b ∨ groupLE b a := by
  rw [groupLE_iff a b, groupLE_iff b a]
  rcases Nat.lt_trichotomy (get_source_priority a.source) (get_source_priority b.source) with
    h | h | h
  · exact Or.inl (Or.inl h)
  · rcases Nat.le_total (calculate_completeness_score b) (calculate_completeness_score a) with
      hc | hc
    · exact Or.inl (Or.inr ⟨h, hc⟩)
    · exact Or.inr (Or.inr ⟨h.symm, hc⟩)
  · exact Or.inr (Or.inl h)

theorem groupLE_trans {a b c : Book} (hab : groupLE a b) (hbc : groupLE b c) : groupLE a c := by
  rw [groupLE_iff] at hab hbc ⊢
  omega

theorem groupLE_refl (a : Book) : groupLE a a := by
  rw [groupLE_iff]
  omega

theorem relLE_iff (query : String) (a b : Book) :
    relLE query a b ↔
      calculate_relevance_score b query ≤ calculate_relevance_score a query := by
  unfold relLE cmpRelBooks
  rw [ne_eq, Nat.compare_eq_gt, Nat.not_lt]

theorem relLE_total (query : String) (a b : Book) : relLE query a b ∨ relLE query b a := by
  rw [relLE_iff, relLE_iff]
  exact Nat.le_total _ _

theorem relLE_trans (query : String) {a b c : Book} (hab : relLE query a b)
    (hbc : relLE query b c) : relLE query a c := by
  rw [relLE_iff] at hab hbc ⊢
  exact Nat.le_trans hbc hab

/-! ## Supporting lemmas: grouping by deduplication key -/

theorem keysOf_groupInsert (k : String) (b : Book) (acc : List (String × List Book)) :
    keysOf (groupInsert k b acc) =
      if k ∈ keysOf acc then keysOf acc else keysOf acc ++ [k] := by
  induction acc with
  | nil => simp [groupInsert, keysOf]
  | cons kg rest ih =>
    obtain ⟨k', g⟩ := kg
    by_cases h : k' = k
    · subst h
      simp [groupInsert, keysOf]
    · have hne : k ≠ k' := fun hc => h hc.symm
      simp only [groupInsert, if_neg h, keysOf, List.map_cons] at ih ⊢
      rw [ih]
      by_cases hm : k ∈ List.map Prod.fst rest
      · rw [if_pos hm, if_pos (List.mem_cons.mpr (Or.inr hm))]
      · rw [if_neg hm, if_neg (fun hc => by
          rcases List.mem_cons.mp hc with hc | hc
          · exact hne hc
          · exact hm hc), List.cons_append]

theorem nodup_keysOf_foldl (l : List Book) :
    ∀ acc : List (String × List Book), (keysOf acc).Nodup →
      (keysOf (l.foldl (fun acc b => groupInsert (create_dedup_key b) b acc) acc)).Nodup := by
  induction l with
  | nil => intro acc h; simpa using h
  | cons b rest ih =>
    intro acc h
    simp only [List.foldl_cons]
    apply ih
    rw [keysOf_groupInsert]
    by_cases hm : create_dedup_key b ∈ keysOf acc
    · simpa [hm] using h
    · simp only [hm, if_false]
      simpa [List.nodup_append] using ⟨h, hm⟩

theorem nodup_keysOf_groupByKey (l : List Book) : (keysOf (groupByKey l)).Nodup :=
  nodup_keysOf_foldl l [] (by simp [keysOf])

theorem mem_keysOf_groupInsert (k k' : String) (b : Book) (acc : List (String × List Book)) :
    k' ∈ keysOf (groupInsert k b acc) ↔ k' ∈ keysOf acc ∨ k' = k := by
  rw [keysOf_groupInsert]
  by_cases hm : k ∈ keysOf acc
  · simp only [hm, if_true]
    constructor
    · exact Or.inl
    · rintro (h | rfl)
      · exact h
      · exact hm
  · simp [hm]

theorem mem_keysOf_foldl (k : String) (l : List Book) :
    ∀ acc : List (String × List Book),
      (k ∈ keysOf (l.foldl (fun acc b => groupInsert (create_dedup_key b) b acc) acc) ↔
        k ∈ keysOf acc ∨ ∃ b ∈ l, create_dedup_key b = k) := by
  induction l with
  | nil => intro acc; simp
  | cons b rest ih =>
    intro acc
    simp only [List.foldl_cons]
    rw [ih]
    rw [mem_keysOf_groupInsert]
    constructor
    · rintro ((h | h) | h)
      · exact Or.inl h
      · exact Or.inr ⟨b, by simp, h.symm⟩
      · obtain ⟨b', hb', hk⟩ := h
        exact Or.inr ⟨b', by simp [hb'], hk⟩
    · rintro (h | ⟨b', hb', hk⟩)
      · exact Or.inl (Or.inl h)
      · rcases List.mem_cons.mp hb' with rfl | hmem
        · exact Or.inl (Or.inr hk.symm)
        · exact Or.inr ⟨b', hmem, hk⟩

theorem mem_keysOf_groupByKey (k : String) (l : List Book) :
    k ∈ keysOf (groupByKey l) ↔ ∃ b ∈ l, create_dedup_key b = k := by
  rw [groupByKey, mem_keysOf_foldl]
  simp [keysOf]

theorem lookG_groupInsert (k k' : String) (b : Book) (acc : List (String × List Book)) :
    lookG k (groupInsert k' b acc) =
      if k' = k then lookG k acc ++ [b] else lookG k acc := by
  induction acc with
  | nil =>
    by_cases h : k' = k <;> simp [groupInsert, lookG, h]
  | cons kg rest ih =>
    obtain ⟨k₀, g⟩ := kg
    by_cases h0 : k₀ = k'
    · by_cases hk : k₀ = k
      · have hk' : k' = k := h0.symm.trans hk
        simp [groupInsert, h0, lookG, hk, hk']
      · have hk' : ¬ k' = k := fun hc => hk (h0.trans hc)
        simp [groupInsert, h0, lookG, hk, hk']
    · by_cases hk : k₀ = k
      · have hk' : ¬ k' = k := fun hc => h0 (hk.trans hc.symm)
        subst hk
        simp [groupInsert, h0, lookG, hk']
      · simp [groupInsert, h0, lookG, hk, ih]

theorem lookG_foldl (k : String) (l : List Book) :
    ∀ acc : List (String × List Book),
      lookG k (l.foldl (fun acc b => groupInsert (create_dedup_key b) b acc) acc) =
        lookG k acc ++ l.filter (fun b => decide (create_dedup_key b = k)) := by
  induction l with
  | nil => intro acc; simp
  | cons b rest ih =>
    intro acc
    simp only [List.foldl_cons, List.filter_cons]
    rw [ih, lookG_groupInsert]
    by_cases h : create_dedup_key b = k
    · simp [h]
    · simp [h]

theorem lookG_groupByKey (k : String) (l : List Book) :
    lookG k (groupByKey l) = l.filter (fun b => decide (create_dedup_key b = k)) := by
  rw [groupByKey, lookG_foldl]
  simp [lookG]

theorem groupsWF_cons {kg : String × List Book} {rest : List (String × List Book)} :
    GroupsWF (kg :: rest) ↔
      (kg.2 ≠ [] ∧ ∀ b ∈ kg.2, create_dedup_key b = kg.1) ∧ GroupsWF rest := by
  unfold GroupsWF
  exact List.forall_mem_cons

theorem groupsWF_groupInsert (k : String) (b : Book) (hb : create_dedup_key b = k) :
    ∀ acc : List (String × List Book), GroupsWF acc → GroupsWF (groupInsert k b acc) := by
  intro acc
  induction acc with
  | nil =>
    intro _
    show GroupsWF [(k, [b])]
    rw [groupsWF_cons]
    refine ⟨⟨by simp, ?_⟩, fun kg hkg => absurd hkg (by simp)⟩
    intro b' hb'
    simp only [List.mem_singleton] at hb'
    subst hb'
    exact hb
  | cons kg₀ rest ih =>
    obtain ⟨k₀, g₀⟩ := kg₀
    intro h
    rw [groupsWF_cons] at h
    obtain ⟨⟨hne, hkeys⟩, hrest⟩ := h
    simp only [groupInsert]
    by_cases hk : k₀ = k
    · rw [if_pos hk, groupsWF_cons]
      refine ⟨⟨by simp, ?_⟩, hrest⟩
      intro b' hb'
      rcases List.mem_append.mp hb' with hb' | hb'
      · exact hkeys b' hb'
      · simp only [List.mem_singleton] at hb'
        subst hb'
        rw [hb, hk]
    · rw [if_neg hk, groupsWF_cons]
      exact ⟨⟨hne, hkeys⟩, ih hrest⟩

theorem groupsWF_foldl (l : List Book) :
    ∀ acc : List (String × List Book), GroupsWF acc →
      GroupsWF (l.foldl (fun acc b => groupInsert (create_dedup_key b) b acc) acc) := by
  induction l with
  | nil => intro acc h; simpa using h
  | cons b rest ih =>
    intro acc h
    simp only [List.foldl_cons]
    exact ih _ (groupsWF_groupInsert _ b rfl acc h)

theorem groupsWF_groupByKey (l : List Book) : GroupsWF (groupByKey l) :=
  groupsWF_foldl l [] (by intro kg hkg; simp at hkg)

theorem length_groupInsert_le (k : String) (b : Book) (acc : List (String × List Book)) :
    (groupInsert k b acc).length ≤ acc.length + 1 := by
  induction acc with
  | nil => simp [groupInsert]
  | cons kg rest ih =>
    obtain ⟨k₀, g₀⟩ := kg
    by_cases h : k₀ = k
    · simp [groupInsert, h]
    · simp only [groupInsert, if_neg h, List.length_cons]
      omega

theorem length_groupByKey_foldl (l : List Book) :
    ∀ acc : List (String × List Book),
      (l.foldl (fun acc b => groupInsert (create_dedup_key b) b acc) acc).length ≤
        acc.length + l.length := by
  induction l with
  | nil => intro acc; simp
  | cons b rest ih =>
    intro acc
    simp only [List.foldl_cons, List.length_cons]
    calc (rest.foldl (fun acc b => groupInsert (create_dedup_key b) b acc)
            (groupInsert (create_dedup_key b) b acc)).length ≤
          (groupInsert (create_dedup_key b) b acc).length + rest.length := ih _
      _ ≤ acc.length + 1 + rest.length := by
          have := length_groupInsert_le (create_dedup_key b) b acc
          omega
      _ = acc.length + (rest.length + 1) := by omega

theorem length_groupByKey_le (l : List Book) : (groupByKey l).length ≤ l.length := by
  have := length_groupByKey_foldl l []
  simpa [groupByKey] using this

theorem lookG_of_mem_nodup {gl : List (String × List Book)} {k : String} {g : List Book}
    (hnd : (keysOf gl).Nodup) (hmem : (k, g) ∈ gl) : lookG k gl = g := by
  induction gl with
  | nil => simp at hmem
  | cons kg rest ih =>
    obtain ⟨k₀, g₀⟩ := kg
    simp only [keysOf, List.map_cons, List.nodup_cons] at hnd
    rcases List.mem_cons.mp hmem with heq | hmem'
    · injection heq with h1 h2
      subst h1
      subst h2
      simp [lookG]
    · have hk₀ : k₀ ≠ k := by
        intro hc
        subst hc
        exact hnd.1 (List.mem_map.mpr ⟨(k₀, g), hmem', rfl⟩)
      simp only [lookG, if_neg hk₀]
      exact ih hnd.2 hmem'

theorem head_insertionSort_min {g : List Book} {h : Book}
    (hh : (List.insertionSort groupLE g).head? = some h) :
    h ∈ g ∧ ∀ b ∈ g, groupLE h b := by
  haveI : IsTotal Book groupLE := ⟨groupLE_total⟩
  haveI : IsTrans Book groupLE := ⟨fun _ _ _ hab hbc => groupLE_trans hab hbc⟩
  have hs := List.sorted_insertionSort groupLE g
  cases hsort : List.insertionSort groupLE g with
  | nil => rw [hsort] at hh; simp at hh
  | cons x t =>
    rw [hsort] at hh hs
    simp only [List.head?_cons, Option.some.injEq] at hh
    subst hh
    constructor
    · have hx : x ∈ List.insertionSort groupLE g := by
        rw [hsort]
        exact List.mem_cons_self _ _
      exact (List.mem_insertionSort groupLE).mp hx
    · intro b hb
      have hbs : b ∈ x :: t := by
        rw [← hsort]
        exact (List.mem_insertionSort groupLE).mpr hb
      rcases List.mem_cons.mp hbs with rfl | hbt
      · exact groupLE_refl _
      · exact List.rel_of_sorted_cons hs b hbt

theorem groupsSurvivors_map_key {gl : List (String × List Book)} (hwf : GroupsWF gl) :
    (groupsSurvivors gl).map create_dedup_key = keysOf gl := by
  induction gl with
  | nil => rfl
  | cons kg rest ih =>
    obtain ⟨k, g⟩ := kg
    rw [groupsWF_cons] at hwf
    obtain ⟨⟨hge, hgk⟩, hrest⟩ := hwf
    have hlen : (List.insertionSort groupLE g).length = g.length :=
      (List.perm_insertionSort groupLE g).length_eq
    cases hsort : List.insertionSort groupLE g with
    | nil =>
      exfalso
      apply hge
      rw [hsort] at hlen
      exact (List.length_eq_zero.mp hlen.symm)
    | cons x t =>
      have hx : x ∈ g := by
        have hx' : x ∈ List.insertionSort groupLE g := by
          rw [hsort]
          exact List.mem_cons_self _ _
        exact (List.mem_insertionSort groupLE).mp hx'
      simp only [groupsSurvivors, List.filterMap_cons, hsort, List.head?_cons, List.map_cons]
      rw [keysOf, List.map_cons]
      have hk : create_dedup_key x = k := hgk x hx
      rw [hk]
      congr 1
      exact ih hrest

theorem mem_survivors_min {l : List Book} {b : Book}
    (hb : b ∈ groupsSurvivors (groupByKey l)) :
    b ∈ l ∧ ∀ b' ∈ l, create_dedup_key b' = create_dedup_key b → groupLE b b' := by
  obtain ⟨kg, hkg, hhead⟩ := List.mem_filterMap.mp hb
  obtain ⟨k, g⟩ := kg
  have hwf := groupsWF_groupByKey l
  have hg := hwf ⟨k, g⟩ hkg
  obtain ⟨hmin_mem, hmin⟩ := head_insertionSort_min hhead
  have hkey : create_dedup_key b = k := hg.2 b hmin_mem
  have hgfilter : g = l.filter (fun x => decide (create_dedup_key x = k)) := by
    rw [← lookG_groupByKey]
    exact (lookG_of_mem_nodup (nodup_keysOf_groupByKey l) hkg).symm
  constructor
  · have hbg : b ∈ g := hmin_mem
    rw [hgfilter] at hbg
    exact (List.mem_filter.mp hbg).1
  · intro b' hb' hk'
    have hb'g : b' ∈ g := by
      rw [hgfilter]
      refine List.mem_filter.mpr ⟨hb', ?_⟩
      simp only [decide_eq_true_eq]
      rw [hk', hkey]
    exact hmin b' hb'g

theorem countP_eq_one_of_nodup_map {α : Type} {f : α → String} {l : List α} {k : String}
    (hnd : (l.map f).Nodup) (hk : k ∈ l.map f) :
    l.countP (fun x => decide (f x = k)) = 1 := by
  induction l with
  | nil => simp at hk
  | cons x t ih =>
    simp only [List.map_cons, List.nodup_cons] at hnd
    rcases List.mem_cons.mp hk with rfl | hk'
    · rw [List.countP_cons_of_pos _ _ (by simp)]
      have hz : t.countP (fun y => decide (f y = f x)) = 0 := by
        rw [List.countP_eq_zero]
        intro y hy
        simp only [decide_eq_true_eq]
        intro hc
        exact hnd.1 (List.mem_map.mpr ⟨y, hy, hc⟩)
      rw [hz]
    · have hxk : f x ≠ k := by
        intro hc
        subst hc
        exact hnd.1 hk'
      rw [List.countP_cons_of_neg _ _ (by simp [hxk])]
      exact ih hnd.2 hk'

theorem dedup_eq (books : List Book) (query : String) :
    deduplicate_and_prioritize books query =
      List.insertionSort (relLE query) (groupsSurvivors (groupByKey books)) := rfl

theorem nodup_keys_dedup (books : List Book) (query : String) :
    ((deduplicate_and_prioritize books query).map create_dedup_key).Nodup := by
  rw [dedup_eq]
  have hperm :
      List.Perm ((groupsSurvivors (groupByKey books)).map create_dedup_key)
        ((List.insertionSort (relLE query) (groupsSurvivors (groupByKey books))).map
          create_dedup_key) :=
    (List.perm_insertionSort (relLE query) _).symm.map create_dedup_key
  apply hperm.nodup
  rw [groupsSurvivors_map_key (groupsWF_groupByKey books)]
  exact nodup_keysOf_groupByKey books

theorem groupInsert_not_mem {k : String} {b : Book} {acc : List (String × List Book)}
    (h : k ∉ keysOf acc) : groupInsert k b acc = acc ++ [(k, [b])] := by
  induction acc with
  | nil => rfl
  | cons kg rest ih =>
    obtain ⟨k₀, g₀⟩ := kg
    simp only [keysOf, List.map_cons, List.mem_cons, not_or] at h
    have hne : ¬ k₀ = k := fun hc => h.1 hc.symm
    simp only [groupInsert]
    rw [if_neg hne, List.cons_append]
    congr 1
    exact ih (by simpa [keysOf] using h.2)

theorem groupByKey_foldl_of_nodup_keys (l : List Book) :
    ∀ acc : List (String × List Book),
      (l.map create_dedup_key).Nodup →
      (∀ b ∈ l, create_dedup_key b ∉ keysOf acc) →
      l.foldl (fun acc b => groupInsert (create_dedup_key b) b acc) acc =
        acc ++ l.map (fun b => (create_dedup_key b, [b])) := by
  induction l with
  | nil => intro acc _ _; simp
  | cons b rest ih =>
    intro acc hnd hdisj
    simp only [List.map_cons, List.nodup_cons] at hnd
    simp only [List.foldl_cons]
    rw [groupInsert_not_mem (hdisj b (by simp))]
    rw [ih _ hnd.2]
    · simp
    · intro b' hb'
      rw [keysOf, List.map_append]
      simp only [List.mem_append]
      push_neg
      constructor
      · exact hdisj b' (by simp [hb'])
      · simp only [List.map_cons, List.map_nil, List.mem_singleton]
        intro hc
        exact hnd.1 (hc ▸ List.mem_map.mpr ⟨b', hb', rfl⟩)

theorem groupByKey_of_nodup_keys {l : List Book} (hnd : (l.map create_dedup_key).Nodup) :
    groupByKey l = l.map (fun b => (create_dedup_key b, [b])) := by
  have := groupByKey_foldl_of_nodup_keys l [] hnd (by intro b _; simp [keysOf])
  simpa [groupByKey] using this

theorem groupsSurvivors_map_singleton (l : List Book) :
    groupsSurvivors (l.map (fun b => (create_dedup_key b, [b]))) = l := by
  induction l with
  | nil => rfl
  | cons b rest ih =>
    simp only [List.map_cons, groupsSurvivors, List.filterMap_cons]
    rw [show List.insertionSort groupLE [b] = [b] by simp]
    simp only [List.head?_cons]
    congr 1

/-- C3 counterexample: reordering the input to the merge step can change the
final ranked output. Two books with the same deduplication key, the same
source and equal completeness scores but different descriptions are grouped
together, and the stable group sort keeps whichever came first in the input,
so the surviving book differs between the two input orders. -/
theorem dedup_order_dependent :
    deduplicate_and_prioritize [tieBook1, tieBook2] "dune" ≠
      deduplicate_and_prioritize [tieBook2, tieBook1] "dune" := by decide

/-- C3 amended: the merge step is not a pure function of the input considered
up to reordering, because survivor selection inside a group and final ranking
break ties by input order. What does hold: the multiset of deduplication keys
in the output is invariant under permutation of the input, and the output is
always sorted by non-increasing relevance score. -/
theorem dedup_keys_perm_invariant_and_sorted (query : String) (l l' : List Book)
    (h : List.Perm l l') :
    List.Perm ((deduplicate_and_prioritize l query).map create_dedup_key)
        ((deduplicate_and_prioritize l' query).map create_dedup_key) ∧
      List.Pairwise
        (fun a b => calculate_relevance_score b query ≤ calculate_relevance_score a query)
        (deduplicate_and_prioritize l query) := by
  constructor
  · have key_perm : ∀ m : List Book,
        List.Perm ((deduplicate_and_prioritize m query).map create_dedup_key)
          (keysOf (groupByKey m)) := by
      intro m
      have h1 : List.Perm
          ((deduplicate_and_prioritize m query).map create_dedup_key)
          ((groupsSurvivors (groupByKey m)).map create_dedup_key) := by
        rw [dedup_eq]
        exact (List.perm_insertionSort (relLE query) _).map create_dedup_key
      rw [groupsSurvivors_map_key (groupsWF_groupByKey m)] at h1
      exact h1
    refine (key_perm l).trans (List.Perm.trans ?_ (key_perm l').symm)
    rw [List.perm_ext_iff_of_nodup (nodup_keysOf_groupByKey l) (nodup_keysOf_groupByKey l')]
    intro k
    rw [mem_keysOf_groupByKey, mem_keysOf_groupByKey]
    constructor
    · rintro ⟨b, hb, hk⟩
      exact ⟨b, h.mem_iff.mp hb, hk⟩
    · rintro ⟨b, hb, hk⟩
      exact ⟨b, h.mem_iff.mpr hb, hk⟩
  · haveI : IsTotal Book (relLE query) := ⟨relLE_total query⟩
    haveI : IsTrans Book (relLE query) := ⟨fun _ _ _ hab hbc => relLE_trans query hab hbc⟩
    have hs : List.Sorted (relLE query)
        (List.insertionSort (relLE query) (groupsSurvivors (groupByKey l))) :=
      List.sorted_insertionSort (relLE query) _
    rw [dedup_eq]
    exact hs.imp (fun hr => (relLE_iff query _ _).mp hr)

/-- C3 amended witness at a concrete permutation pair. -/
theorem dedup_keys_perm_invariant_and_sorted_witness :
    List.Perm ((deduplicate_and_prioritize [tieBook1, tieBook2] "dune").map create_dedup_key)
        ((deduplicate_and_prioritize [tieBook2, tieBook1] "dune").map create_dedup_key) ∧
      List.Pairwise
        (fun a b => calculate_relevance_score b "dune" ≤ calculate_relevance_score a "dune")
        (deduplicate_and_prioritize [tieBook1, tieBook2] "dune") :=
  dedup_keys_perm_invariant_and_sorted "dune" [tieBook1, tieBook2] [tieBook2, tieBook1]
    (List.Perm.swap tieBook2 tieBook1 [])

/-- C4: every key present in the input appears on exactly one book of the
deduplicated output; each output book is optimal in its key group, preferring
a lower source priority number (Gutenberg 1, OpenLibrary 2, Google 3) and,
at equal priority, a completeness score at least as high (groupLE, see
groupLE_iff); and the Dune scenario collapses to the full-text catalog book. -/
theorem dedup_collapse_and_priority (books : List Book) (query : String) (k : String)
    (hk : ∃ b ∈ books, create_dedup_key b = k) :
    (deduplicate_and_prioritize books query).countP
        (fun b => decide (create_dedup_key b = k)) = 1 ∧
      (∀ b ∈ deduplicate_and_prioritize books query, ∀ b' ∈ books,
        create_dedup_key b' = create_dedup_key b → groupLE b b') ∧
      deduplicate_and_prioritize [bookCatalogA, bookFullText] "dune" = [bookFullText] := by
  refine ⟨?_, ?_, by decide⟩
  · rw [dedup_eq]
    rw [(List.perm_insertionSort (relLE query) (groupsSurvivors (groupByKey books))).countP_eq]
    have hmap := groupsSurvivors_map_key (groupsWF_groupByKey books)
    have hnd : ((groupsSurvivors (groupByKey books)).map create_dedup_key).Nodup := by
      rw [hmap]
      exact nodup_keysOf_groupByKey books
    have hkmem : k ∈ (groupsSurvivors (groupByKey books)).map create_dedup_key := by
      rw [hmap, mem_keysOf_groupByKey]
      exact hk
    exact countP_eq_one_of_nodup_map hnd hkmem
  · intro b hb b' hb' hkk
    rw [dedup_eq] at hb
    have hb2 : b ∈ groupsSurvivors (groupByKey books) :=
      (List.mem_insertionSort (relLE query)).mp hb
    exact (mem_survivors_min hb2).2 b' hb' hkk

/-- C4 witness at the Dune scenario input and key. -/
theorem dedup_collapse_and_priority_witness :
    (deduplicate_and_prioritize [bookCatalogA, bookFullText] "dune").countP
        (fun b => decide (create_dedup_key b = "dune|frankherbert")) = 1 ∧
      (∀ b ∈ deduplicate_and_prioritize [bookCatalogA, bookFullText] "dune",
        ∀ b' ∈ [bookCatalogA, bookFullText],
        create_dedup_key b' = create_dedup_key b → groupLE b b') ∧
      deduplicate_and_prioritize [bookCatalogA, bookFullText] "dune" = [bookFullText] :=
  dedup_collapse_and_priority [bookCatalogA, bookFullText] "dune" "dune|frankherbert"
    ⟨bookFullText, by decide, by decide⟩

/-- C5 counterexample: applying the deduplicator twice is not a no-op once
the HashMap iteration order is taken into account. The first pass on two
distinct-key, relevance-tied books returns them in input order; the second
pass groups them into two singleton groups, and the freshly seeded HashMap of
the second call may present those groups in the reversed order (a permutation
of the grouped entries), in which case the stable relevance sort keeps the
reversed tie order and the second pass output differs from the first pass
output as a list. -/
theorem dedup_second_pass_order_dependent :
    List.Perm
        ((groupByKey (deduplicate_and_prioritize [relTieBookA, relTieBookB] "dune")).reverse)
        (groupByKey (deduplicate_and_prioritize [relTieBookA, relTieBookB] "dune")) ∧
      dedupFromGroups
          ((groupByKey (deduplicate_and_prioritize [relTieBookA, relTieBookB] "dune")).reverse)
          "dune" ≠
        deduplicate_and_prioritize [relTieBookA, relTieBookB] "dune" :=
  ⟨List.reverse_perm _, by decide⟩

/-- C5 amended: under every HashMap iteration order of the second pass (every
permutation of the grouped entries of the first pass output), the second pass
returns a permutation of the first pass output, still sorted by
non-increasing relevance; equality as lists is not guaranteed. The size bound
survives unamended: the output never has more books than the input. -/
theorem dedup_idempotent_up_to_order (books : List Book) (query : String)
    (gs : List (String × List Book))
    (h : List.Perm gs (groupByKey (deduplicate_and_prioritize books query))) :
    List.Perm (dedupFromGroups gs query) (deduplicate_and_prioritize books query) ∧
      List.Pairwise
        (fun a b => calculate_relevance_score b query ≤ calculate_relevance_score a query)
        (dedupFromGroups gs query) ∧
      (deduplicate_and_prioritize books query).length ≤ books.length := by
  refine ⟨?_, ?_, ?_⟩
  · have h1 : List.Perm (dedupFromGroups gs query) (groupsSurvivors gs) :=
      List.perm_insertionSort (relLE query) _
    have h2 : List.Perm (groupsSurvivors gs)
        (groupsSurvivors (groupByKey (deduplicate_and_prioritize books query))) :=
      List.Perm.filterMap _ h
    have h3 : groupsSurvivors (groupByKey (deduplicate_and_prioritize books query)) =
        deduplicate_and_prioritize books query := by
      rw [groupByKey_of_nodup_keys (nodup_keys_dedup books query),
        groupsSurvivors_map_singleton]
    have h12 := h1.trans h2
    rw [h3] at h12
    exact h12
  · haveI : IsTotal Book (relLE query) := ⟨relLE_total query⟩
    haveI : IsTrans Book (relLE query) := ⟨fun _ _ _ hab hbc => relLE_trans query hab hbc⟩
    have hs : List.Sorted (relLE query) (dedupFromGroups gs query) :=
      List.sorted_insertionSort (relLE query) _
    exact hs.imp (fun hr => (relLE_iff query _ _).mp hr)
  · rw [dedup_eq]
    rw [(List.perm_insertionSort (relLE query) _).length_eq]
    calc (groupsSurvivors (groupByKey books)).length
        ≤ (groupByKey books).length := List.length_filterMap_le _ _
      _ ≤ books.length := length_groupByKey_le books

/-- C5 amended witness: the reversed grouping of the first pass output is a
concrete HashMap order (a permutation of the grouped entries), and the
amended theorem applied there. -/
theorem dedup_idempotent_up_to_order_witness :
    List.Perm
        ((groupByKey (deduplicate_and_prioritize [relTieBookA, relTieBookB] "dune")).reverse)
        (groupByKey (deduplicate_and_prioritize [relTieBookA, relTieBookB] "dune")) ∧
      (List.Perm
          (dedupFromGroups
            ((groupByKey
              (deduplicate_and_prioritize [relTieBookA, relTieBookB] "dune")).reverse)
            "dune")
          (deduplicate_and_prioritize [relTieBookA, relTieBookB] "dune") ∧
        List.Pairwise
          (fun a b => calculate_relevance_score b "dune" ≤ calculate_relevance_score a "dune")
          (dedupFromGroups
            ((groupByKey
              (deduplicate_and_prioritize [relTieBookA, relTieBookB] "dune")).reverse)
            "dune") ∧
        (deduplicate_and_prioritize [relTieBookA, relTieBookB] "dune").length ≤
          ([relTieBookA, relTieBookB] : List Book).length) :=
  ⟨List.reverse_perm _,
    dedup_idempotent_up_to_order [relTieBookA, relTieBookB] "dune"
      ((groupByKey (deduplicate_and_prioritize [relTieBookA, relTieBookB] "dune")).reverse)
      (List.reverse_perm _)⟩

/-- C8: a book id whose colon split does not have exactly two parts fails
immediately with InvalidInput; the result is the same for every adapter
assignment, so no source adapter is consulted. -/
theorem getBookDetails_invalid_format (ad : Adapters) (id : String)
    (h : (idParts id).length ≠ 2) :
    get_book_details ad id =
      Except.error (AppError.InvalidInput "Invalid book ID format") := by
  unfold get_book_details
  split
  · rename_i source book_id heq
    rw [heq] at h
    simp at h
  · rfl

/-- C8 witness: the id badformat has one part and yields InvalidInput. -/
theorem getBookDetails_invalid_format_witness :
    (idParts "badformat").length ≠ 2 ∧
      get_book_details trivialAdapters "badformat" =
        Except.error (AppError.InvalidInput "Invalid book ID format") :=
  ⟨by decide, getBookDetails_invalid_format trivialAdapters "badformat" (by decide)⟩

/-- C9: the text normalizer is a total function of the input string, and
whenever no valid window with start index below end index is found it
returns the input unchanged. -/
theorem clean_passthrough (content : String)
    (h : ¬ findStartIdx (linesOf content) < findEndIdx (linesOf content)) :
    clean_project_gutenberg_text content = content := by
  have heq : clean_project_gutenberg_text content =
      if findStartIdx (linesOf content) < findEndIdx (linesOf content) then
        joinSep "\n"
          (((((linesOf content).drop (findStartIdx (linesOf content))).take
            (findEndIdx (linesOf content) - findStartIdx (linesOf content))).filter
              keepCleanLine).map strTrim)
      else content := rfl
  rw [heq, if_neg h]

/-- C9 witness: a lone start-marker line places the start index at the end
of the text, no window exists, and cleaning is the identity there. -/
theorem clean_passthrough_witness :
    (¬ findStartIdx (linesOf gutenbergMarkerLine) <
        findEndIdx (linesOf gutenbergMarkerLine)) ∧
      clean_project_gutenberg_text gutenbergMarkerLine = gutenbergMarkerLine :=
  ⟨by decide, clean_passthrough gutenbergMarkerLine (by decide)⟩

/-- C10: for a well-formed two-part id, an unknown source tag yields an
InvalidInput error, and a gutenberg id whose local part does not parse as a
decimal 32-bit integer yields an InvalidInput error; in both cases the
result is independent of the adapters, so no adapter call is made, and the
result is an error, never a missing value. -/
theorem getBookDetails_unknown_source (ad : Adapters) (id source book_id : String)
    (hp : idParts id = [source, book_id]) :
    (source ≠ "google" → source ≠ "openlibrary" → source ≠ "gutenberg" →
      get_book_details ad id =
        Except.error (AppError.InvalidInput "Unknown book source")) ∧
    (source = "gutenberg" → parseI32 book_id = none →
      get_book_details ad id =
        Except.error (AppError.InvalidInput "Invalid Gutenberg ID")) := by
  constructor
  · intro h1 h2 h3
    unfold get_book_details
    rw [hp]
    split <;> simp_all
  · intro hs hparse
    subst hs
    unfold get_book_details
    rw [hp]
    simp [hparse]

/-- C10 witness at a concrete unknown source and a concrete bad Gutenberg
id. -/
theorem getBookDetails_unknown_source_witness :
    get_book_details trivialAdapters "foo:bar" =
        Except.error (AppError.InvalidInput "Unknown book source") ∧
      get_book_details trivialAdapters "gutenberg:abc" =
        Except.error (AppError.InvalidInput "Invalid Gutenberg ID") :=
  ⟨(getBookDetails_unknown_source trivialAdapters "foo:bar" "foo" "bar" (by decide)).1
      (by decide) (by decide) (by decide),
    (getBookDetails_unknown_source trivialAdapters "gutenberg:abc" "gutenberg" "abc"
        (by decide)).2 rfl (by decide)⟩

/-! ## Supporting lemmas: character-level splitting and word counts -/

theorem wordCount_eq_wcChars (s : String) : wordCount s = wcChars s.data := by
  unfold wordCount splitWhitespaceStr wcChars
  rw [List.length_map]

theorem joinSep_data (sep : String) :
    ∀ l : List String, (joinSep sep l).data = joinSepChars sep.data (l.map String.data)
  | [] => rfl
  | [x] => rfl
  | x :: y :: xs => by
    show (x ++ sep ++ joinSep sep (y :: xs)).data = _
    rw [String.data_append, String.data_append, joinSep_data sep (y :: xs)]
    rfl

theorem splitOnPredAux_no_match (p : Char → Bool) :
    ∀ l : List Char, (∀ c ∈ l, p c = false) → ∀ acc,
      splitOnPredAux p l acc = [acc.reverse ++ l]
  | [], _, acc => by simp [splitOnPredAux]
  | c :: cs, h, acc => by
    have hc : p c = false := h c (by simp)
    simp only [splitOnPredAux, hc, Bool.false_eq_true, if_false]
    rw [splitOnPredAux_no_match p cs (fun c' hc' => h c' (by simp [hc'])) (c :: acc)]
    simp

theorem splitOnPredAux_flush (p : Char → Bool) :
    ∀ (l1 : List Char) (c : Char) (l2 : List Char), p c = true → ∀ acc,
      splitOnPredAux p (l1 ++ c :: l2) acc =
        splitOnPredAux p l1 acc ++ splitOnPredAux p l2 []
  | [], c, l2, hc, acc => by
    simp only [List.nil_append, splitOnPredAux, hc, if_true]
    rfl
  | d :: l1', c, l2, hc, acc => by
    by_cases hd : p d = true
    · simp only [List.cons_append, splitOnPredAux, hd, if_true, List.append_eq]
      rw [splitOnPredAux_flush p l1' c l2 hc []]
    · have hd' : p d = false := by
        cases hpd : p d
        · rfl
        · exact absurd hpd hd
      simp only [List.cons_append, splitOnPredAux, hd', Bool.false_eq_true, if_false,
        List.append_eq]
      rw [splitOnPredAux_flush p l1' c l2 hc (d :: acc)]

theorem wcChars_flush {c : Char} (hc : c.isWhitespace = true) (l1 l2 : List Char) :
    wcChars (l1 ++ c :: l2) = wcChars l1 + wcChars l2 := by
  unfold wcChars splitOnPred
  rw [splitOnPredAux_flush Char.isWhitespace l1 c l2 hc []]
  rw [List.filter_append, List.length_append]

theorem wcChars_ws_lead :
    ∀ sep : List Char, (∀ c ∈ sep, c.isWhitespace = true) →
      ∀ l, wcChars (sep ++ l) = wcChars l
  | [], _, l => by simp
  | c :: rest, h, l => by
    have h1 : wcChars (([] : List Char) ++ c :: (rest ++ l)) =
        wcChars [] + wcChars (rest ++ l) :=
      wcChars_flush (h c (by simp)) [] (rest ++ l)
    simp only [List.nil_append] at h1
    rw [show (c :: rest) ++ l = c :: (rest ++ l) from rfl, h1,
      wcChars_ws_lead rest (fun c' hc' => h c' (by simp [hc'])) l,
      show wcChars [] = 0 from rfl]
    omega

theorem wcChars_sep (s1 sep s2 : List Char) (hne : sep ≠ [])
    (hws : ∀ c ∈ sep, c.isWhitespace = true) :
    wcChars (s1 ++ sep ++ s2) = wcChars s1 + wcChars s2 := by
  cases sep with
  | nil => exact absurd rfl hne
  | cons c rest =>
    have hsh : s1 ++ (c :: rest) ++ s2 = s1 ++ c :: (rest ++ s2) := by simp
    rw [hsh, wcChars_flush (hws c (by simp)) s1 (rest ++ s2),
      wcChars_ws_lead rest (fun c' hc' => hws c' (by simp [hc'])) s2]

theorem wordCount_append_sep (x y sep : String) (hne : sep.data ≠ [])
    (hws : ∀ c ∈ sep.data, c.isWhitespace = true) :
    wordCount (x ++ sep ++ y) = wordCount x + wordCount y := by
  rw [wordCount_eq_wcChars, wordCount_eq_wcChars, wordCount_eq_wcChars,
    String.data_append, String.data_append]
  exact wcChars_sep x.data sep.data y.data hne hws

theorem wordCount_joinSep (sep : String) (hne : sep.data ≠ [])
    (hws : ∀ c ∈ sep.data, c.isWhitespace = true) :
    ∀ l : List String, wordCount (joinSep sep l) = (l.map wordCount).sum
  | [] => by
    show wordCount "" = 0
    rfl
  | [x] => by simp [joinSep]
  | x :: y :: xs => by
    show wordCount (x ++ sep ++ joinSep sep (y :: xs)) = _
    rw [wordCount_append_sep x (joinSep sep (y :: xs)) sep hne hws,
      wordCount_joinSep sep hne hws (y :: xs)]
    simp

theorem splitNNAux_cons₂ (c1 c2 : Char) (rest acc : List Char)
    (h : ¬(c1 = '\n' ∧ c2 = '\n')) :
    splitNNAux (c1 :: c2 :: rest) acc = splitNNAux (c2 :: rest) (c1 :: acc) := by
  conv_lhs => rw [splitNNAux.eq_def]
  split
  · rename_i rest' heq
    injection heq with h1 h2
    injection h2 with h2a h2b
    exact absurd ⟨h1, h2a⟩ h
  · rename_i c' rest' heq
    injection heq with h1 h2
    subst h1
    subst h2
    rfl
  · rename_i heq
    exact absurd heq (by simp)

theorem splitNNAux_single (c : Char) (acc : List Char) :
    splitNNAux [c] acc = [(c :: acc).reverse] := by
  conv_lhs => rw [splitNNAux.eq_def]
  split
  · rename_i rest' heq
    injection heq with h1 h2
    exact absurd h2 (by simp)
  · rename_i c' rest' heq
    injection heq with h1 h2
    subst h1
    subst h2
    rfl
  · rename_i heq
    exact absurd heq (by simp)

theorem splitNNAux_ne_nil : ∀ l acc : List Char, splitNNAux l acc ≠ []
  | [], acc => by simp [splitNNAux]
  | [c], acc => by rw [splitNNAux_single]; simp
  | c1 :: c2 :: rest, acc => by
    by_cases h : c1 = '\n' ∧ c2 = '\n'
    · obtain ⟨h1, h2⟩ := h
      subst h1
      subst h2
      rw [show splitNNAux ('\n' :: '\n' :: rest) acc = acc.reverse :: splitNNAux rest []
        from rfl]
      simp
    · rw [splitNNAux_cons₂ c1 c2 rest acc h]
      exact splitNNAux_ne_nil (c2 :: rest) (c1 :: acc)

theorem joinSepChars_cons_of_ne (sep x : List Char) {xs : List (List Char)}
    (h : xs ≠ []) : joinSepChars sep (x :: xs) = x ++ sep ++ joinSepChars sep xs := by
  cases xs with
  | nil => exact absurd rfl h
  | cons y ys => rfl

theorem joinSepChars_splitNNAux :
    ∀ l acc : List Char, joinSepChars ['\n', '\n'] (splitNNAux l acc) = acc.reverse ++ l
  | [], acc => by simp [splitNNAux, joinSepChars]
  | [c], acc => by
    rw [splitNNAux_single]
    simp [joinSepChars]
  | c1 :: c2 :: rest, acc => by
    by_cases h : c1 = '\n' ∧ c2 = '\n'
    · obtain ⟨h1, h2⟩ := h
      subst h1
      subst h2
      rw [show splitNNAux ('\n' :: '\n' :: rest) acc = acc.reverse :: splitNNAux rest []
        from rfl]
      rw [joinSepChars_cons_of_ne _ _ (splitNNAux_ne_nil rest [])]
      rw [joinSepChars_splitNNAux rest []]
      simp
    · rw [splitNNAux_cons₂ c1 c2 rest acc h]
      rw [joinSepChars_splitNNAux (c2 :: rest) (c1 :: acc)]
      simp

theorem joinSep_splitNNStr (s : String) : joinSep "\n\n" (splitNNStr s) = s := by
  apply String.ext
  rw [joinSep_data]
  unfold splitNNStr
  rw [List.map_map]
  have hid : (splitNNAux s.data []).map (String.data ∘ String.mk) = splitNNAux s.data [] := by
    apply List.map_id''
    intro l
    rfl
  rw [hid]
  have := joinSepChars_splitNNAux s.data []
  simpa using this

/-! ## Supporting lemmas: the concrete 2001-word witness text -/

theorem repChars_succ (n : Nat) : repChars (n + 1) = 'a' :: ' ' :: repChars n := by
  unfold repChars
  rw [List.replicate_succ, List.flatten_cons]
  simp

theorem mem_repChars : ∀ n, ∀ c ∈ repChars n, c = 'a' ∨ c = ' '
  | 0, c, hc => by
    unfold repChars at hc
    simp at hc
    exact Or.inl hc
  | n + 1, c, hc => by
    rw [repChars_succ] at hc
    rcases List.mem_cons.mp hc with rfl | hc'
    · exact Or.inl rfl
    · rcases List.mem_cons.mp hc' with rfl | hc''
      · exact Or.inr rfl
      · exact mem_repChars n c hc''

theorem repChars_ne_nil (n : Nat) : repChars n ≠ [] := by
  unfold repChars
  simp

theorem repChars_head (n : Nat) : ∃ rest, repChars n = 'a' :: rest := by
  cases n with
  | zero => exact ⟨[], rfl⟩
  | succ m => exact ⟨' ' :: repChars m, repChars_succ m⟩

theorem getLast?_repChars (n : Nat) : (repChars n).getLast? = some 'a' := by
  unfold repChars
  exact List.getLast?_concat _

theorem bigText_ne_empty : bigText ≠ "" := by
  intro hc
  have hdata : bigText.data = [] := by rw [hc]
  exact repChars_ne_nil 2000 hdata

theorem splitWS_repChars : ∀ n,
    splitOnPredAux Char.isWhitespace (repChars n) [] = List.replicate n ['a'] ++ [['a']]
  | 0 => rfl
  | n + 1 => by
    rw [repChars_succ]
    rw [show splitOnPredAux Char.isWhitespace ('a' :: ' ' :: repChars n) [] =
        ['a'] :: splitOnPredAux Char.isWhitespace (repChars n) [] from rfl]
    rw [splitWS_repChars n]
    simp [List.replicate_succ]

theorem wcChars_repChars (n : Nat) : wcChars (repChars n) = n + 1 := by
  unfold wcChars splitOnPred
  rw [splitWS_repChars n, List.filter_append]
  have h1 : (List.replicate n ['a']).filter (fun w => w ≠ []) = List.replicate n ['a'] := by
    apply List.filter_eq_self.mpr
    intro w hw
    have hw' := List.eq_of_mem_replicate hw
    subst hw'
    simp
  rw [h1]
  simp

theorem wordCount_bigText : wordCount bigText = 2001 := by
  rw [wordCount_eq_wcChars]
  show wcChars (repChars 2000) = 2001
  rw [wcChars_repChars]

theorem head_mem_of_contains :
    ∀ (hay needle : List Char) (c : Char), listContainsSub hay needle = true →
      needle.head? = some c → c ∈ hay
  | [], needle, c, h, hc => by
    cases needle with
    | nil => simp at hc
    | cons d rest =>
      unfold listContainsSub at h
      simp [List.isPrefixOf] at h
  | x :: t, needle, c, h, hc => by
    unfold listContainsSub at h
    rw [Bool.or_eq_true] at h
    rcases h with hpre | hrec
    · cases needle with
      | nil => simp at hc
      | cons d rest =>
        simp only [List.head?_cons, Option.some.injEq] at hc
        subst hc
        simp only [List.isPrefixOf, Bool.and_eq_true, beq_iff_eq] at hpre
        rw [hpre.1]
        exact List.mem_cons_self x t
    · exact List.mem_cons_of_mem x (head_mem_of_contains t needle c hrec hc)

theorem containsSubstr_bigText_false (pat : String) (c : Char)
    (hhead : pat.data.head? = some c) (hc : c ≠ 'a' ∧ c ≠ ' ') :
    containsSubstr bigText pat = false := by
  unfold containsSubstr
  cases hcs : listContainsSub bigText.data pat.data
  · rfl
  · exfalso
    have hmem := head_mem_of_contains _ _ c hcs hhead
    rcases mem_repChars 2000 c hmem with h | h
    · exact hc.1 h
    · exact hc.2 h

theorem startsWith_bigText_false (pat : String) (c : Char)
    (hhead : pat.data.head? = some c) (hc : c ≠ 'a') :
    startsWithStr bigText pat = false := by
  unfold startsWithStr
  obtain ⟨rest, hrest⟩ := repChars_head 2000
  show pat.data.isPrefixOf (repChars 2000) = false
  rw [hrest]
  cases hp : pat.data with
  | nil =>
    rw [hp] at hhead
    simp at hhead
  | cons d ds =>
    rw [hp] at hhead
    simp only [List.head?_cons, Option.some.injEq] at hhead
    subst hhead
    simp only [List.isPrefixOf, Bool.and_eq_true, beq_iff_eq]
    simp [hc]

theorem strTrim_bigText : strTrim bigText = bigText := by
  show String.mk (trimChars bigText.data) = bigText
  unfold trimChars
  have h1 : bigText.data.dropWhile Char.isWhitespace = bigText.data := by
    obtain ⟨rest, hrest⟩ := repChars_head 2000
    show (repChars 2000).dropWhile Char.isWhitespace = repChars 2000
    rw [hrest]
    rfl
  rw [h1]
  have h2 : bigText.data.reverse.dropWhile Char.isWhitespace = bigText.data.reverse := by
    have hrev : bigText.data.reverse =
        'a' :: (List.replicate 2000 ['a', ' ']).flatten.reverse := by
      show (repChars 2000).reverse = _
      unfold repChars
      rw [List.reverse_append, List.reverse_singleton]
      exact List.singleton_append
    rw [hrev]
    rfl
  rw [h2, List.reverse_reverse]

theorem keepCleanLine_bigText : keepCleanLine bigText = true := by
  have c1 : containsSubstr bigText "gutenberg.org" = false :=
    containsSubstr_bigText_false "gutenberg.org" 'g' rfl (by decide)
  have c2 : startsWithStr bigText "Produced by" = false :=
    startsWith_bigText_false "Produced by" 'P' rfl (by decide)
  have c3 : startsWithStr bigText "Updated:" = false :=
    startsWith_bigText_false "Updated:" 'U' rfl (by decide)
  have c4 : startsWithStr bigText "[Illustration" = false :=
    startsWith_bigText_false "[Illustration" '[' rfl (by decide)
  unfold keepCleanLine
  simp [strTrim_bigText, c1, c2, c3, c4, bigText_ne_empty]

theorem linesOf_bigText : linesOf bigText = [bigText] := by
  unfold linesOf splitOnPred
  have hno : ∀ c ∈ bigText.data, (fun c => decide (c = '\n')) c = false := by
    intro c hcm
    rcases mem_repChars 2000 c hcm with h | h <;> subst h <;> rfl
  rw [splitOnPredAux_no_match _ _ hno []]
  rw [show dropTrailingEmpty [([] : List Char).reverse ++ bigText.data] =
      [bigText.data] from by
    obtain ⟨rest, hrest⟩ := repChars_head 2000
    show dropTrailingEmpty [repChars 2000] = [repChars 2000]
    rw [hrest]
    rfl]
  simp only [List.map_cons, List.map_nil]
  rw [show stripCR bigText.data = bigText.data from by
    unfold stripCR
    rw [show bigText.data.getLast? = some 'a' from getLast?_repChars 2000]
    rfl]

theorem findStartIdx_bigText : findStartIdx [bigText] = 0 := by
  have h1 : hasStartMarker bigText = false := by
    unfold hasStartMarker
    rw [containsSubstr_bigText_false "*** START OF" '*' rfl (by decide)]
    rfl
  have h2 : isChapterHeading bigText = false := by
    unfold isChapterHeading
    rw [startsWith_bigText_false "CHAPTER" 'C' rfl (by decide)]
    rw [startsWith_bigText_false "Chapter" 'C' rfl (by decide)]
    rfl
  unfold findStartIdx findStartIdxAux
  simp [h1, h2, findStartIdxAux]

theorem findEndIdx_bigText : findEndIdx [bigText] = 1 := by
  have h : hasEndMarker bigText = false := by
    unfold hasEndMarker
    rw [containsSubstr_bigText_false "*** END OF" '*' rfl (by decide)]
    rfl
  unfold findEndIdx
  simp [List.enum, h]

theorem clean_bigText : clean_project_gutenberg_text bigText = bigText := by
  have heq : clean_project_gutenberg_text bigText =
      if findStartIdx (linesOf bigText) < findEndIdx (linesOf bigText) then
        joinSep "\n"
          (((((linesOf bigText).drop (findStartIdx (linesOf bigText))).take
            (findEndIdx (linesOf bigText) - findStartIdx (linesOf bigText))).filter
              keepCleanLine).map strTrim)
      else bigText := rfl
  rw [heq, linesOf_bigText, findStartIdx_bigText, findEndIdx_bigText]
  rw [if_pos (show (0 : Nat) < 1 by norm_num)]
  simp [keepCleanLine_bigText, strTrim_bigText]
  rfl

theorem splitNNAux_no_nl :
    ∀ l : List Char, (∀ c ∈ l, c ≠ '\n') → ∀ acc, splitNNAux l acc = [acc.reverse ++ l]
  | [], _, acc => by simp [splitNNAux]
  | [c], _, acc => by
    rw [splitNNAux_single]
    simp
  | c1 :: c2 :: rest, h, acc => by
    rw [splitNNAux_cons₂ c1 c2 rest acc (fun hc => h c1 (by simp) hc.1)]
    rw [splitNNAux_no_nl (c2 :: rest) (fun c hcm => h c (List.mem_cons_of_mem c1 hcm))
      (c1 :: acc)]
    simp

theorem splitNNStr_bigText : splitNNStr bigText = [bigText] := by
  unfold splitNNStr
  have hno : ∀ c ∈ bigText.data, c ≠ '\n' := by
    intro c hcm
    rcases mem_repChars 2000 c hcm with h | h <;> subst h <;> decide
  rw [splitNNAux_no_nl bigText.data hno []]
  rfl

theorem split_into_sentences_bigText : split_into_sentences bigText = [bigText] := by
  unfold split_into_sentences splitOnPred
  have hno : ∀ c ∈ bigText.data,
      (fun c => decide (c = '.' ∨ c = '!' ∨ c = '?')) c = false := by
    intro c hcm
    rcases mem_repChars 2000 c hcm with h | h <;> subst h <;> rfl
  rw [splitOnPredAux_no_match _ _ hno []]
  have hne : strTrim (String.mk bigText.data) ≠ "" := by
    show strTrim bigText ≠ ""
    rw [strTrim_bigText]
    exact bigText_ne_empty
  simp [hne]

theorem smart_chunk_bigText : smart_chunk_by_paragraphs bigText 1500 = [bigText] := by
  have heq : smart_chunk_by_paragraphs bigText 1500 =
      if (splitNNStr bigText).filter (fun p => strTrim p ≠ "") = [] then
        fallback_chunk_by_words bigText 1500
      else paraLoop 1500 ((splitNNStr bigText).filter (fun p => strTrim p ≠ "")) [] 0 := rfl
  have hfil : (splitNNStr bigText).filter (fun p => strTrim p ≠ "") = [bigText] := by
    rw [splitNNStr_bigText]
    have hne : strTrim bigText ≠ "" := by
      rw [strTrim_bigText]
      exact bigText_ne_empty
    simp [hne]
  rw [heq, hfil]
  rw [if_neg (show ¬ ([bigText] = ([] : List String)) by simp)]
  have hs1 : sentLoop 1500 [bigText] [] 0 = [[bigText]] := by
    unfold sentLoop
    rw [wordCount_bigText]
    rw [if_neg (show ¬ ((1500 : Nat) < 0 + 2001 ∧ ¬ (([] : List String) = [])) by simp)]
    unfold sentLoop
    simp only [List.nil_append]
    rw [if_neg (show ¬ ([bigText] = ([] : List String)) by simp)]
  unfold paraLoop
  rw [wordCount_bigText]
  rw [if_pos (show (1500 : Nat) < 2001 by norm_num)]
  rw [split_into_sentences_bigText, hs1]
  rw [if_pos (show ([] : List String) = [] from rfl)]
  unfold paraLoop
  rw [if_pos (show ([] : List String) = [] from rfl)]
  simp [joinSep]

/-! ## Supporting lemmas: summarization pipeline -/

theorem summarize_chunks_eq (be : Backend) (chunks : List String) (language style : String) :
    summarize_chunks be chunks language style =
      some (chunksLoop be language style (chunks.take (min 4 chunks.length))) := rfl

theorem summarize_eq (be : Backend) (content language style : String) :
    summarize be content language style =
      if content = "" then some (get_fallback_message language)
      else if wordCount (clean_project_gutenberg_text content) ≤ 2000 then
        (if language = "en" then
          be.summarizeBart SUMMARIZATION_MODEL (clean_project_gutenberg_text content) 800 200
        else
          multilingual_summarize be (clean_project_gutenberg_text content) language style
            800 200)
      else if smart_chunk_by_paragraphs (clean_project_gutenberg_text content) 1500 = [] then
        some (fallback_summary (clean_project_gutenberg_text content))
      else
        match summarize_chunks be
            (smart_chunk_by_paragraphs (clean_project_gutenberg_text content) 1500)
            language style with
        | none => none
        | some chunk_summaries =>
          if chunk_summaries = [] then
            some (fallback_summary (clean_project_gutenberg_text content))
          else
            some (if language = "en" then
              (be.summarizeBart SUMMARIZATION_MODEL (joinSep "\n\n" chunk_summaries)
                1200 300).getD (fallback_summary (joinSep "\n\n" chunk_summaries))
            else
              (multilingual_summarize be (joinSep "\n\n" chunk_summaries) language style
                1200 300).getD (fallback_summary (joinSep "\n\n" chunk_summaries))) := rfl

theorem append_dot_ne_empty (s : String) : s ++ "." ≠ "" := by
  intro hc
  have hdata : (s ++ ".").data = ("" : String).data := by rw [hc]
  rw [String.data_append] at hdata
  simp at hdata

theorem fallback_shape_ne_empty (sentences : List String) :
    (if sentences = [] then
      "This literary work offers engaging storytelling with memorable characters and explores meaningful themes that resonate with readers."
    else strTrim (joinSep ". " sentences) ++ ".") ≠ "" := by
  split
  · decide
  · exact append_dot_ne_empty _

theorem fallback_summary_ne_empty (content : String) : fallback_summary content ≠ "" :=
  fallback_shape_ne_empty _

theorem multilingual_summarize_fail (be : Backend)
    (hb : ∀ m t a b, be.summarizeBart m t a b = none)
    (hg : ∀ m p, be.textGeneration m p = none)
    (text language style : String) (target_tokens min_tokens : Nat) :
    multilingual_summarize be text language style target_tokens min_tokens = none := by
  unfold multilingual_summarize
  split
  · exact hb _ _ _ _
  · simp only [hg]
    exact hb _ _ _ _

theorem chunkCall_fail (be : Backend)
    (hb : ∀ m t a b, be.summarizeBart m t a b = none)
    (hg : ∀ m p, be.textGeneration m p = none)
    (language style chunk : String) : chunkCall be language style chunk = none := by
  unfold chunkCall
  split
  · exact hb _ _ _ _
  · exact multilingual_summarize_fail be hb hg _ _ _ _ _

theorem chunksLoop_fail (be : Backend)
    (hb : ∀ m t a b, be.summarizeBart m t a b = none)
    (hg : ∀ m p, be.textGeneration m p = none) (language style : String) :
    ∀ chunks, chunksLoop be language style chunks = []
  | [] => rfl
  | chunk :: rest => by
    unfold chunksLoop
    rw [chunkCall_fail be hb hg language style chunk]
    exact chunksLoop_fail be hb hg language style rest

theorem chunksLoop_length_le (be : Backend) (language style : String) :
    ∀ chunks, (chunksLoop be language style chunks).length ≤ chunks.length
  | [] => by simp [chunksLoop]
  | chunk :: rest => by
    unfold chunksLoop
    cases chunkCall be language style chunk with
    | none =>
      exact Nat.le_succ_of_le (chunksLoop_length_le be language style rest)
    | some summary =>
      dsimp only
      by_cases h : clean_summary summary ≠ ""
      · rw [if_pos h]
        exact Nat.succ_le_succ (chunksLoop_length_le be language style rest)
      · rw [if_neg h]
        exact Nat.le_succ_of_le (chunksLoop_length_le be language style rest)

/-- C1 counterexample: with a backend on which every call fails, a non-empty
input on the ShortPath (11 characters, 2 words after cleaning) makes
summarize return the error (none), not a fallback summary. -/
theorem summarize_shortpath_error_propagates :
    summarize failBackend "Hello world" "en" "concise" = none := by decide

/-- C1 amended: when every backend call fails, summarize propagates the
error on the ShortPath (word count at most 2000 after cleaning) and falls
back to the extractive summary over the cleaned text on the ChunkedPath;
the fallback string is never empty. The original claim fails because the
short path has no fallback. -/
theorem summarize_allfail (be : Backend)
    (hb : ∀ m t a b, be.summarizeBart m t a b = none)
    (hg : ∀ m p, be.textGeneration m p = none)
    (content language style : String) (hne : content ≠ "") :
    summarize be content language style =
        (if wordCount (clean_project_gutenberg_text content) ≤ 2000 then none
        else some (fallback_summary (clean_project_gutenberg_text content))) ∧
      fallback_summary (clean_project_gutenberg_text content) ≠ "" := by
  refine ⟨?_, fallback_summary_ne_empty _⟩
  rw [summarize_eq, if_neg hne]
  by_cases hwc : wordCount (clean_project_gutenberg_text content) ≤ 2000
  · rw [if_pos hwc, if_pos hwc]
    split
    · exact hb _ _ _ _
    · exact multilingual_summarize_fail be hb hg _ _ _ _ _
  · rw [if_neg hwc, if_neg hwc]
    by_cases hch : smart_chunk_by_paragraphs (clean_project_gutenberg_text content) 1500 = []
    · rw [if_pos hch]
    · rw [if_neg hch, summarize_chunks_eq]
      rw [chunksLoop_fail be hb hg language style _]
      rfl

/-- C1 amended witness: the all-failing backend at a one-word input. -/
theorem summarize_allfail_witness :
    (∀ m t a b, failBackend.summarizeBart m t a b = none) ∧
      (∀ m p, failBackend.textGeneration m p = none) ∧ ("x" : String) ≠ "" ∧
      (summarize failBackend "x" "en" "concise" =
          (if wordCount (clean_project_gutenberg_text "x") ≤ 2000 then none
          else some (fallback_summary (clean_project_gutenberg_text "x"))) ∧
        fallback_summary (clean_project_gutenberg_text "x") ≠ "") :=
  ⟨fun _ _ _ _ => rfl, fun _ _ => rfl, by decide,
    summarize_allfail failBackend (fun _ _ _ _ => rfl) (fun _ _ => rfl) "x" "en" "concise"
      (by decide)⟩

/-- C2 counterexample: with a backend that echoes the requested lengths, a
detailed-style request on the short path is issued with target 800 and min
200, not the 1500 and 400 of the style table, so the requested lengths are
not the table function of the style. -/
theorem style_table_violated :
    summarize spyBackend "Hello world" "en" "detailed" = some "800/200" ∧
      summarize spyBackend "Hello world" "en" "detailed" ≠ some "1500/400" := by
  constructor
  · decide
  · decide

/-- C2 amended: the requested lengths do not depend on the style: the short
path always requests 800 and 200, every per-chunk call requests 200 and 50,
and the final call of the chunked path requests 1200 and 300. The table
ordering detailed, academic, simple, concise therefore holds degenerately
with equality, and a concise final call uses 800 and 200 only on the short
path. -/
theorem style_lengths_independent (style content : String) (hne : content ≠ "") :
    (wordCount (clean_project_gutenberg_text content) ≤ 2000 →
      summarize spyBackend content "en" style = some "800/200") ∧
    (∀ chunk rest, chunksLoop spyBackend "en" style (chunk :: rest) =
      "200/50" :: chunksLoop spyBackend "en" style rest) ∧
    (2000 < wordCount (clean_project_gutenberg_text content) →
      smart_chunk_by_paragraphs (clean_project_gutenberg_text content) 1500 ≠ [] →
      summarize spyBackend content "en" style = some "1200/300") := by
  refine ⟨?_, ?_, ?_⟩
  · intro hwc
    rw [summarize_eq, if_neg hne, if_pos hwc, if_pos rfl]
    rfl
  · intro chunk rest
    rfl
  · intro hwc hch
    rw [summarize_eq, if_neg hne, if_neg (by omega), if_neg hch, summarize_chunks_eq]
    obtain ⟨c, rest, hcr⟩ : ∃ c rest,
        (smart_chunk_by_paragraphs (clean_project_gutenberg_text content) 1500).take
          (min 4 (smart_chunk_by_paragraphs
            (clean_project_gutenberg_text content) 1500).length) = c :: rest := by
      cases hsc : smart_chunk_by_paragraphs (clean_project_gutenberg_text content) 1500 with
      | nil => exact absurd hsc hch
      | cons c cs =>
        refine ⟨c, cs.take (min 3 cs.length), ?_⟩
        rw [List.length_cons, Nat.succ_min_succ, List.take_succ_cons]
    rw [hcr]
    rw [show chunksLoop spyBackend "en" style (c :: rest) =
      "200/50" :: chunksLoop spyBackend "en" style rest from rfl]
    rfl

/-- C2 amended witness: concise requests at a short input, one chunk, and
the 2001-word chunked input. -/
theorem style_lengths_independent_witness :
    summarize spyBackend "x" "en" "concise" = some "800/200" ∧
      chunksLoop spyBackend "en" "concise" ["y"] = ["200/50"] ∧
      summarize spyBackend bigText "en" "concise" = some "1200/300" := by
  refine ⟨(style_lengths_independent "concise" "x" (by decide)).1 (by decide), ?_, ?_⟩
  · exact (style_lengths_independent "concise" "x" (by decide)).2.1 "y" []
  · exact (style_lengths_independent "concise" bigText bigText_ne_empty).2.2
      (by rw [clean_bigText, wordCount_bigText]; omega)
      (by rw [clean_bigText, smart_chunk_bigText]; simp)

/-- C7: on the ChunkedPath at most four chunks are summarized (excess
chunks are dropped and the chunk summaries number at most four); a chunk
whose call fails is skipped and the loop continues; if no chunk summary
survives, the result is the extractive fallback over the cleaned full text;
and if the final call fails, the result is the extractive fallback over the
joined chunk summaries. -/
theorem chunked_path_properties (be : Backend) (language style : String) :
    (∀ chunks : List String,
      summarize_chunks be chunks language style =
          summarize_chunks be (chunks.take 4) language style ∧
        ∀ l, summarize_chunks be chunks language style = some l → l.length ≤ 4) ∧
    (∀ chunk rest, chunkCall be language style chunk = none →
      chunksLoop be language style (chunk :: rest) =
        chunksLoop be language style rest) ∧
    (∀ content, 2000 < wordCount (clean_project_gutenberg_text content) →
      chunksLoop be language style
          ((smart_chunk_by_paragraphs (clean_project_gutenberg_text content) 1500).take
            (min 4 (smart_chunk_by_paragraphs
              (clean_project_gutenberg_text content) 1500).length)) = [] →
      summarize be content language style =
        some (fallback_summary (clean_project_gutenberg_text content))) ∧
    (∀ content, 2000 < wordCount (clean_project_gutenberg_text content) →
      ∀ s rest, chunksLoop be language style
          ((smart_chunk_by_paragraphs (clean_project_gutenberg_text content) 1500).take
            (min 4 (smart_chunk_by_paragraphs
              (clean_project_gutenberg_text content) 1500).length)) = s :: rest →
      (if language = "en" then
        be.summarizeBart SUMMARIZATION_MODEL (joinSep "\n\n" (s :: rest)) 1200 300
      else
        multilingual_summarize be (joinSep "\n\n" (s :: rest)) language style 1200 300) =
          none →
      summarize be content language style =
        some (fallback_summary (joinSep "\n\n" (s :: rest)))) := by
  have hcontent_ne : ∀ content : String,
      2000 < wordCount (clean_project_gutenberg_text content) → content ≠ "" := by
    intro content hwc hc
    subst hc
    revert hwc
    decide
  have hchunks_ne : ∀ content : String,
      2000 < wordCount (clean_project_gutenberg_text content) →
      ∀ s rest, chunksLoop be language style
        ((smart_chunk_by_paragraphs (clean_project_gutenberg_text content) 1500).take
          (min 4 (smart_chunk_by_paragraphs
            (clean_project_gutenberg_text content) 1500).length)) = s :: rest →
      smart_chunk_by_paragraphs (clean_project_gutenberg_text content) 1500 ≠ [] := by
    intro content _ s rest hz hc
    rw [hc] at hz
    simp [chunksLoop] at hz
  refine ⟨?_, ?_, ?_, ?_⟩
  · intro chunks
    constructor
    · rw [summarize_chunks_eq, summarize_chunks_eq]
      have htake : chunks.take (min 4 chunks.length) =
          (chunks.take 4).take (min 4 (chunks.take 4).length) := by
        rw [List.take_take, List.length_take]
        congr 1
        omega
      rw [htake]
    · intro l hl
      rw [summarize_chunks_eq] at hl
      injection hl with hl
      subst hl
      calc (chunksLoop be language style (chunks.take (min 4 chunks.length))).length
          ≤ (chunks.take (min 4 chunks.length)).length :=
            chunksLoop_length_le be language style _
        _ ≤ 4 := by
            rw [List.length_take]
            omega
  · intro chunk rest hfail
    have heq : chunksLoop be language style (chunk :: rest) =
        match chunkCall be language style chunk with
        | some summary =>
          if clean_summary summary ≠ "" then
            clean_summary summary :: chunksLoop be language style rest
          else chunksLoop be language style rest
        | none => chunksLoop be language style rest := rfl
    rw [heq, hfail]
  · intro content hwc hz
    rw [summarize_eq, if_neg (hcontent_ne content hwc), if_neg (by omega)]
    by_cases hch : smart_chunk_by_paragraphs (clean_project_gutenberg_text content) 1500 = []
    · rw [if_pos hch]
    · rw [if_neg hch, summarize_chunks_eq, hz]
      rfl
  · intro content hwc s rest hz hfinal
    rw [summarize_eq, if_neg (hcontent_ne content hwc), if_neg (by omega),
      if_neg (hchunks_ne content hwc s rest hz), summarize_chunks_eq, hz]
    rw [show (match some (s :: rest) with
      | none => none
      | some chunk_summaries =>
        if chunk_summaries = [] then
          some (fallback_summary (clean_project_gutenberg_text content))
        else
          some (if language = "en" then
            (be.summarizeBart SUMMARIZATION_MODEL (joinSep "\n\n" chunk_summaries)
              1200 300).getD (fallback_summary (joinSep "\n\n" chunk_summaries))
          else
            (multilingual_summarize be (joinSep "\n\n" chunk_summaries) language style
              1200 300).getD (fallback_summary (joinSep "\n\n" chunk_summaries))) :
        Option String) =
      some (if language = "en" then
        (be.summarizeBart SUMMARIZATION_MODEL (joinSep "\n\n" (s :: rest))
          1200 300).getD (fallback_summary (joinSep "\n\n" (s :: rest)))
      else
        (multilingual_summarize be (joinSep "\n\n" (s :: rest)) language style
          1200 300).getD (fallback_summary (joinSep "\n\n" (s :: rest)))) from by
      rw [show (some (s :: rest) : Option (List String)) = some (s :: rest) from rfl]
      simp]
    rw [← apply_ite (fun o : Option String =>
      o.getD (fallback_summary (joinSep "\n\n" (s :: rest))))]
    rw [hfinal]
    rfl

/-- C7 witness: the four properties at concrete backends and the 2001-word
text. -/
theorem chunked_path_properties_witness :
    (summarize_chunks failBackend ["c1", "c2", "c3", "c4", "c5"] "en" "concise" =
        summarize_chunks failBackend ["c1", "c2", "c3", "c4"] "en" "concise" ∧
      ∀ l, summarize_chunks failBackend ["c1", "c2", "c3", "c4", "c5"] "en" "concise" =
        some l → l.length ≤ 4) ∧
      chunksLoop failBackend "en" "concise" ["c0"] = chunksLoop failBackend "en" "concise" [] ∧
      summarize failBackend bigText "en" "concise" =
        some (fallback_summary (clean_project_gutenberg_text bigText)) ∧
      summarize finalFailBackend bigText "en" "concise" =
        some (fallback_summary
          (joinSep "\n\n" ["This chunk level summary text survived"])) := by
  obtain ⟨h1, h2, h3, h4⟩ := chunked_path_properties failBackend "en" "concise"
  obtain ⟨-, -, -, h4'⟩ := chunked_path_properties finalFailBackend "en" "concise"
  have hwcbig : 2000 < wordCount (clean_project_gutenberg_text bigText) := by
    rw [clean_bigText, wordCount_bigText]
    omega
  refine ⟨?_, ?_, ?_, ?_⟩
  · have := h1 ["c1", "c2", "c3", "c4", "c5"]
    exact ⟨this.1.trans (by rfl), this.2⟩
  · exact h2 "c0" [] rfl
  · exact h3 bigText hwcbig (by rw [clean_bigText, smart_chunk_bigText]; rfl)
  · exact h4' bigText (by rw [clean_bigText, wordCount_bigText]; omega)
      "This chunk level summary text survived" []
      (by rw [clean_bigText, smart_chunk_bigText]; rfl) rfl

/-! ## Supporting lemmas: the chunker -/

theorem str_eq_empty_iff (s : String) : s = "" ↔ s.data = [] := by
  constructor
  · intro h
    rw [h]
  · intro h
    exact String.ext h

theorem strTrim_ne_empty_imp (p : String) (h : strTrim p ≠ "") : p ≠ "" := by
  intro hc
  subst hc
  exact h rfl

theorem joinSep_cons_ne (sep x : String) {l : List String} (h : l ≠ []) :
    joinSep sep (x :: l) = x ++ sep ++ joinSep sep l := by
  cases l with
  | nil => exact absurd rfl h
  | cons y ys => rfl

theorem joinSep_ne_empty (sep : String) (l : List String) (hne : l ≠ [])
    (h : ∀ s ∈ l, s ≠ "") : joinSep sep l ≠ "" := by
  cases l with
  | nil => exact absurd rfl hne
  | cons x xs =>
    cases xs with
    | nil => exact h x (by simp)
    | cons y ys =>
      rw [joinSep_cons_ne sep x (by simp)]
      intro hc
      have hd := (str_eq_empty_iff _).mp hc
      rw [String.data_append, String.data_append] at hd
      have hx : x.data = [] := by
        cases hdx : x.data with
        | nil => rfl
        | cons c cs =>
          rw [hdx] at hd
          simp at hd
      exact h x (by simp) ((str_eq_empty_iff x).mpr hx)

theorem joinSep_append (sep : String) :
    ∀ l1 l2 : List String, l1 ≠ [] → l2 ≠ [] →
      joinSep sep (l1 ++ l2) = joinSep sep l1 ++ sep ++ joinSep sep l2
  | [], _, h1, _ => absurd rfl h1
  | [x], l2, _, h2 => by
    rw [List.singleton_append, joinSep_cons_ne sep x h2]
    rfl
  | x :: x2 :: l1', l2, _, h2 => by
    rw [List.cons_append, joinSep_cons_ne sep x (by simp),
      joinSep_cons_ne sep x (by simp)]
    rw [joinSep_append sep (x2 :: l1') l2 (by simp) h2]
    simp [String.append_assoc]

theorem splitOnPredAux_chars (p : Char → Bool) :
    ∀ (l acc : List Char), ∀ g ∈ splitOnPredAux p l acc, ∀ c ∈ g,
      p c = false ∨ c ∈ acc
  | [], acc, g, hg, c, hc => by
    simp only [splitOnPredAux, List.mem_singleton] at hg
    subst hg
    exact Or.inr (List.mem_reverse.mp hc)
  | d :: cs, acc, g, hg, c, hc => by
    by_cases hd : p d = true
    · simp only [splitOnPredAux, hd, if_true, List.mem_cons] at hg
      rcases hg with rfl | hg
      · exact Or.inr (List.mem_reverse.mp hc)
      · rcases splitOnPredAux_chars p cs [] g hg c hc with h | h
        · exact Or.inl h
        · simp at h
    · have hd' : p d = false := by
        cases hpd : p d
        · rfl
        · exact absurd hpd hd
      simp only [splitOnPredAux, hd', Bool.false_eq_true, if_false] at hg
      rcases splitOnPredAux_chars p cs (d :: acc) g hg c hc with h | h
      · exact Or.inl h
      · rcases List.mem_cons.mp h with rfl | h'
        · exact Or.inl hd'
        · exact Or.inr h'

theorem splitOnPred_chars (p : Char → Bool) (l : List Char) :
    ∀ g ∈ splitOnPred p l, ∀ c ∈ g, p c = false := by
  intro g hg c hc
  rcases splitOnPredAux_chars p l [] g hg c hc with h | h
  · exact h
  · simp at h

theorem split_into_sentences_mem {p s : String} (hs : s ∈ split_into_sentences p) :
    strTrim s ≠ "" ∧ ∀ c ∈ s.data, ¬(c = '.' ∨ c = '!' ∨ c = '?') := by
  unfold split_into_sentences at hs
  obtain ⟨hmem, htrim⟩ := List.mem_filter.mp hs
  refine ⟨by simpa using htrim, ?_⟩
  obtain ⟨g, hg, rfl⟩ := List.mem_map.mp hmem
  intro c hc hpun
  have := splitOnPred_chars _ p.data g hg c hc
  rw [decide_eq_false_iff_not] at this
  exact this hpun

theorem sentence_count_le_one {s : String}
    (h : ∀ c ∈ s.data, ¬(c = '.' ∨ c = '!' ∨ c = '?')) :
    (split_into_sentences s).length ≤ 1 := by
  unfold split_into_sentences splitOnPred
  rw [splitOnPredAux_no_match _ _ (fun c hc => decide_eq_false (h c hc)) []]
  simp only [List.nil_append, List.map_cons, List.map_nil]
  exact List.length_filter_le _ _

theorem splitWhitespaceStr_mem {text w : String} (hw : w ∈ splitWhitespaceStr text) :
    w ≠ "" ∧ wordCount w = 1 := by
  unfold splitWhitespaceStr at hw
  obtain ⟨g, hg, rfl⟩ := List.mem_map.mp hw
  obtain ⟨hmem, hne⟩ := List.mem_filter.mp hg
  have hchars := splitOnPred_chars Char.isWhitespace text.data g hmem
  have hgne : g ≠ [] := by simpa using hne
  constructor
  · intro hc
    exact hgne ((str_eq_empty_iff _).mp hc)
  · rw [wordCount_eq_wcChars]
    show wcChars g = 1
    unfold wcChars splitOnPred
    rw [splitOnPredAux_no_match Char.isWhitespace g hchars []]
    simp [hgne]

theorem sum_map_ones {g : List String} (h : ∀ x ∈ g, wordCount x = 1) :
    (g.map wordCount).sum = g.length := by
  induction g with
  | nil => rfl
  | cons x xs ih =>
    simp only [List.map_cons, List.sum_cons, List.length_cons]
    rw [h x (by simp), ih (fun y hy => h y (by simp [hy]))]
    omega

theorem listChunksGo_mem (n : Nat) (hn : 0 < n) :
    ∀ (fuel : Nat) (l : List String), l.length ≤ fuel →
      ∀ g ∈ listChunksGo n fuel l, g ≠ [] ∧ g.length ≤ n ∧ ∀ x ∈ g, x ∈ l
  | 0, l, hlen, g, hg => by
    have : l = [] := List.length_eq_zero.mp (Nat.le_zero.mp hlen)
    subst this
    simp [listChunksGo] at hg
  | fuel + 1, l, hlen, g, hg => by
    cases l with
    | nil => simp [listChunksGo] at hg
    | cons x xs =>
      rw [show listChunksGo n (fuel + 1) (x :: xs) =
          if n = 0 then [x :: xs]
          else (x :: xs).take n :: listChunksGo n fuel ((x :: xs).drop n) from rfl] at hg
      rw [if_neg (Nat.pos_iff_ne_zero.mp hn)] at hg
      rcases List.mem_cons.mp hg with rfl | hg'
      · obtain ⟨m, rfl⟩ : ∃ m, n = m + 1 := ⟨n - 1, by omega⟩
        refine ⟨by simp [List.take_succ_cons], ?_, ?_⟩
        · rw [List.length_take]
          omega
        · intro y hy
          exact List.mem_of_mem_take hy
      · have hlen' : ((x :: xs).drop n).length ≤ fuel := by
          rw [List.length_drop]
          simp only [List.length_cons] at hlen ⊢
          omega
        obtain ⟨h1, h2, h3⟩ := listChunksGo_mem n hn fuel _ hlen' g hg'
        exact ⟨h1, h2, fun y hy => List.mem_of_mem_drop (h3 y hy)⟩

theorem chunk_from_group (tw : Nat) (current : List String) (hne : current ≠ [])
    (hmem : ∀ p ∈ current, strTrim p ≠ "")
    (hsum : (current.map wordCount).sum ≤ tw) :
    joinSep "\n\n" current ≠ "" ∧ wordCount (joinSep "\n\n" current) ≤ tw := by
  constructor
  · exact joinSep_ne_empty "\n\n" current hne
      (fun s hs => strTrim_ne_empty_imp s (hmem s hs))
  · rw [wordCount_joinSep "\n\n" (by decide) (by decide) current]
    exact hsum

theorem chunk_from_sentgroup (tw : Nat) (g : List String) (hne : g ≠ [])
    (hmem : ∀ s ∈ g, strTrim s ≠ "" ∧ ∀ c ∈ s.data, ¬(c = '.' ∨ c = '!' ∨ c = '?'))
    (hdisj : (g.map wordCount).sum ≤ tw ∨ g.length ≤ 1) :
    joinSep " " g ≠ "" ∧
      (wordCount (joinSep " " g) ≤ tw ∨ (split_into_sentences (joinSep " " g)).length ≤ 1) := by
  constructor
  · exact joinSep_ne_empty " " g hne (fun s hs => strTrim_ne_empty_imp s (hmem s hs).1)
  · rcases hdisj with hsum | hlen
    · left
      rw [wordCount_joinSep " " (by decide) (by decide) g]
      exact hsum
    · right
      cases g with
      | nil => exact absurd rfl hne
      | cons s rest =>
        cases rest with
        | nil => exact sentence_count_le_one (hmem s (by simp)).2
        | cons t rest' => simp at hlen

theorem sentLoop_mem (tw : Nat) :
    ∀ (sents acc : List String) (cnt : Nat),
      (∀ s ∈ sents, strTrim s ≠ "" ∧ ∀ c ∈ s.data, ¬(c = '.' ∨ c = '!' ∨ c = '?')) →
      (∀ s ∈ acc, strTrim s ≠ "" ∧ ∀ c ∈ s.data, ¬(c = '.' ∨ c = '!' ∨ c = '?')) →
      cnt = (acc.map wordCount).sum →
      (2 ≤ acc.length → cnt ≤ tw) →
      ∀ g ∈ sentLoop tw sents acc cnt,
        g ≠ [] ∧
          (∀ s ∈ g, strTrim s ≠ "" ∧ ∀ c ∈ s.data, ¬(c = '.' ∨ c = '!' ∨ c = '?')) ∧
          ((g.map wordCount).sum ≤ tw ∨ g.length ≤ 1)
  | [], acc, cnt, _, hacc, hsum, hbound, g, hg => by
    rw [show sentLoop tw [] acc cnt = if acc = [] then [] else [acc] from rfl] at hg
    by_cases ha : acc = []
    · rw [if_pos ha] at hg
      simp at hg
    · rw [if_neg ha] at hg
      simp only [List.mem_singleton] at hg
      subst hg
      refine ⟨ha, hacc, ?_⟩
      by_cases hlen : 2 ≤ g.length
      · exact Or.inl (hsum ▸ hbound hlen)
      · exact Or.inr (by omega)
  | s :: rest, acc, cnt, hsents, hacc, hsum, hbound, g, hg => by
    rw [show sentLoop tw (s :: rest) acc cnt =
        if tw < cnt + wordCount s ∧ acc ≠ [] then
          acc :: sentLoop tw rest [s] (wordCount s)
        else sentLoop tw rest (acc ++ [s]) (cnt + wordCount s) from rfl] at hg
    have hs := hsents s (by simp)
    by_cases hcond : tw < cnt + wordCount s ∧ acc ≠ []
    · rw [if_pos hcond] at hg
      rcases List.mem_cons.mp hg with rfl | hg'
      · refine ⟨hcond.2, hacc, ?_⟩
        by_cases hlen : 2 ≤ g.length
        · exact Or.inl (hsum ▸ hbound hlen)
        · exact Or.inr (by omega)
      · refine sentLoop_mem tw rest [s] (wordCount s)
          (fun x hx => hsents x (by simp [hx])) ?_ (by simp) ?_ g hg'
        · intro x hx
          simp only [List.mem_singleton] at hx
          subst hx
          exact hs
        · intro h2
          simp at h2
    · rw [if_neg hcond] at hg
      refine sentLoop_mem tw rest (acc ++ [s]) (cnt + wordCount s)
        (fun x hx => hsents x (by simp [hx])) ?_ ?_ ?_ g hg
      · intro x hx
        rcases List.mem_append.mp hx with hx | hx
        · exact hacc x hx
        · simp only [List.mem_singleton] at hx
          subst hx
          exact hs
      · rw [List.map_append, List.sum_append]
        simp [hsum]
      · intro h2
        by_cases ha : acc = []
        · subst ha
          simp at h2
        · have hle : ¬ tw < cnt + wordCount s := fun hlt => hcond ⟨hlt, ha⟩
          omega

theorem paraLoop_cons_eq (tw : Nat) (p : String) (rest current : List String) (cnt : Nat) :
    paraLoop tw (p :: rest) current cnt =
      if tw < wordCount p then
        (if current = [] then [] else [joinSep "\n\n" current]) ++
          (sentLoop tw (split_into_sentences p) [] 0).map (joinSep " ") ++
          paraLoop tw rest [] 0
      else if tw < cnt + wordCount p ∧ current ≠ [] then
        joinSep "\n\n" current :: paraLoop tw rest [p] (wordCount p)
      else paraLoop tw rest (current ++ [p]) (cnt + wordCount p) := rfl

theorem paraLoop_mem (tw : Nat) :
    ∀ (paras current : List String) (cnt : Nat),
      (∀ p ∈ paras, strTrim p ≠ "") →
      (∀ p ∈ current, strTrim p ≠ "") →
      cnt = (current.map wordCount).sum →
      cnt ≤ tw →
      ∀ c ∈ paraLoop tw paras current cnt,
        c ≠ "" ∧ (wordCount c ≤ tw ∨ (split_into_sentences c).length ≤ 1)
  | [], current, cnt, _, hcur, hsum, hbound, c, hc => by
    rw [show paraLoop tw [] current cnt =
        if current = [] then [] else [joinSep "\n\n" current] from rfl] at hc
    by_cases hcu : current = []
    · rw [if_pos hcu] at hc
      simp at hc
    · rw [if_neg hcu] at hc
      simp only [List.mem_singleton] at hc
      subst hc
      obtain ⟨h1, h2⟩ := chunk_from_group tw current hcu hcur (hsum ▸ hbound)
      exact ⟨h1, Or.inl h2⟩
  | p :: rest, current, cnt, hparas, hcur, hsum, hbound, c, hc => by
    rw [paraLoop_cons_eq] at hc
    have hp : strTrim p ≠ "" := hparas p (by simp)
    have hrest : ∀ q ∈ rest, strTrim q ≠ "" := fun q hq => hparas q (by simp [hq])
    by_cases hov : tw < wordCount p
    · rw [if_pos hov] at hc
      rcases List.mem_append.mp hc with hc' | hc'
      · rcases List.mem_append.mp hc' with hcf | hcs
        · by_cases hcu : current = []
          · rw [if_pos hcu] at hcf
            simp at hcf
          · rw [if_neg hcu] at hcf
            simp only [List.mem_singleton] at hcf
            subst hcf
            obtain ⟨h1, h2⟩ := chunk_from_group tw current hcu hcur (hsum ▸ hbound)
            exact ⟨h1, Or.inl h2⟩
        · obtain ⟨g, hg, rfl⟩ := List.mem_map.mp hcs
          obtain ⟨hgne, hgmem, hgdisj⟩ := sentLoop_mem tw (split_into_sentences p) [] 0
            (fun s hs => split_into_sentences_mem hs) (by simp) rfl (by simp) g hg
          exact chunk_from_sentgroup tw g hgne hgmem hgdisj
      · exact paraLoop_mem tw rest [] 0 hrest (by simp) rfl (by omega) c hc'
    · rw [if_neg hov] at hc
      by_cases hcond : tw < cnt + wordCount p ∧ current ≠ []
      · rw [if_pos hcond] at hc
        rcases List.mem_cons.mp hc with rfl | hc'
        · obtain ⟨h1, h2⟩ := chunk_from_group tw current hcond.2 hcur (hsum ▸ hbound)
          exact ⟨h1, Or.inl h2⟩
        · refine paraLoop_mem tw rest [p] (wordCount p) hrest ?_ (by simp) (by omega) c hc'
          intro x hx
          simp only [List.mem_singleton] at hx
          subst hx
          exact hp
      · rw [if_neg hcond] at hc
        refine paraLoop_mem tw rest (current ++ [p]) (cnt + wordCount p) hrest ?_ ?_ ?_ c hc
        · intro x hx
          rcases List.mem_append.mp hx with hx | hx
          · exact hcur x hx
          · simp only [List.mem_singleton] at hx
            subst hx
            exact hp
        · rw [List.map_append, List.sum_append]
          simp [hsum]
        · by_cases hcu : current = []
          · have h0 : cnt = 0 := by
              subst hcu
              simp [hsum]
            omega
          · have hle : ¬ tw < cnt + wordCount p := fun hlt => hcond ⟨hlt, hcu⟩
            omega

theorem paraLoop_ne_nil (tw : Nat) :
    ∀ (paras current : List String) (cnt : Nat), current ≠ [] →
      paraLoop tw paras current cnt ≠ []
  | [], current, cnt, h => by
    rw [show paraLoop tw [] current cnt =
        if current = [] then [] else [joinSep "\n\n" current] from rfl, if_neg h]
    simp
  | p :: rest, current, cnt, h => by
    rw [paraLoop_cons_eq]
    by_cases hov : tw < wordCount p
    · rw [if_pos hov, if_neg h]
      simp
    · rw [if_neg hov]
      by_cases hcond : tw < cnt + wordCount p ∧ current ≠ []
      · rw [if_pos hcond]
        simp
      · rw [if_neg hcond]
        exact paraLoop_ne_nil tw rest (current ++ [p]) (cnt + wordCount p) (by simp)

theorem paraLoop_coverage (tw : Nat) :
    ∀ (paras current : List String) (cnt : Nat),
      (∀ p ∈ paras, wordCount p ≤ tw) →
      ¬(current = [] ∧ paras = []) →
      joinSep "\n\n" (paraLoop tw paras current cnt) = joinSep "\n\n" (current ++ paras)
  | [], current, cnt, _, hne => by
    have hcu : current ≠ [] := fun h => hne ⟨h, rfl⟩
    rw [show paraLoop tw [] current cnt =
        if current = [] then [] else [joinSep "\n\n" current] from rfl, if_neg hcu]
    rw [List.append_nil]
    rfl
  | p :: rest, current, cnt, hwc, _ => by
    have hov : ¬ tw < wordCount p := by
      have := hwc p (by simp)
      omega
    rw [paraLoop_cons_eq, if_neg hov]
    by_cases hcond : tw < cnt + wordCount p ∧ current ≠ []
    · rw [if_pos hcond]
      rw [joinSep_cons_ne "\n\n" _ (paraLoop_ne_nil tw rest [p] (wordCount p) (by simp))]
      rw [paraLoop_coverage tw rest [p] (wordCount p)
        (fun q hq => hwc q (by simp [hq])) (by simp)]
      rw [← joinSep_append "\n\n" current ([p] ++ rest) hcond.2 (by simp)]
      rfl
    · rw [if_neg hcond]
      by_cases hcu : current = []
      · subst hcu
        rw [paraLoop_coverage tw rest ([] ++ [p]) (cnt + wordCount p)
          (fun q hq => hwc q (by simp [hq])) (by simp)]
        rfl
      · rw [paraLoop_coverage tw rest (current ++ [p]) (cnt + wordCount p)
          (fun q hq => hwc q (by simp [hq])) (by simp)]
        rw [List.append_assoc]
        rfl

theorem fallback_chunk_mem (text : String) (tw : Nat) (htext : text ≠ "") (htw : 0 < tw) :
    ∀ c ∈ fallback_chunk_by_words text tw, c ≠ "" ∧ wordCount c ≤ tw := by
  intro c hc
  rw [show fallback_chunk_by_words text tw =
      if (splitWhitespaceStr text).length ≤ tw then [text]
      else (listChunks tw (splitWhitespaceStr text)).map (joinSep " ") from rfl] at hc
  by_cases hlen : (splitWhitespaceStr text).length ≤ tw
  · rw [if_pos hlen] at hc
    simp only [List.mem_singleton] at hc
    subst hc
    exact ⟨htext, hlen⟩
  · rw [if_neg hlen] at hc
    obtain ⟨g, hg, rfl⟩ := List.mem_map.mp hc
    obtain ⟨hgne, hglen, hgsub⟩ := listChunksGo_mem tw htw
      (splitWhitespaceStr text).length (splitWhitespaceStr text) (le_refl _) g hg
    have hmem1 : ∀ x ∈ g, x ≠ "" ∧ wordCount x = 1 :=
      fun x hx => splitWhitespaceStr_mem (hgsub x hx)
    constructor
    · exact joinSep_ne_empty " " g hgne (fun s hs => (hmem1 s hs).1)
    · rw [wordCount_joinSep " " (by decide) (by decide) g]
      rw [sum_map_ones (fun x hx => (hmem1 x hx).2)]
      exact le_trans hglen (le_refl _)

theorem smart_chunk_eq (text : String) (tw : Nat) :
    smart_chunk_by_paragraphs text tw =
      if (splitNNStr text).filter (fun p => strTrim p ≠ "") = [] then
        fallback_chunk_by_words text tw
      else paraLoop tw ((splitNNStr text).filter (fun p => strTrim p ≠ "")) [] 0 := rfl

theorem smart_chunk_coverage (text : String) (tw : Nat)
    (h : ∀ p ∈ splitNNStr text, strTrim p ≠ "" ∧ wordCount p ≤ tw) :
    joinSep "\n\n" (smart_chunk_by_paragraphs text tw) = text := by
  have hfil : (splitNNStr text).filter (fun p => strTrim p ≠ "") = splitNNStr text :=
    List.filter_eq_self.mpr (fun p hp => by simp [(h p hp).1])
  have hne : splitNNStr text ≠ [] := by
    unfold splitNNStr
    intro hcc
    exact splitNNAux_ne_nil text.data [] (List.map_eq_nil_iff.mp hcc)
  rw [smart_chunk_eq, hfil, if_neg hne]
  rw [paraLoop_coverage tw (splitNNStr text) [] 0 (fun p hp => (h p hp).2)
    (fun hcc => hne hcc.2)]
  exact joinSep_splitNNStr text

/-- C6 counterexample: with target word count 1, the input consisting of two
words and a period is chunked by the oversize-paragraph sentence path, and
the sentence-final period is lost: no concatenation of the chunks, with or
without separators, reproduces the input. -/
theorem chunk_coverage_violated :
    smart_chunk_by_paragraphs "aa bb." 1 = ["aa bb"] ∧
      joinSep "" (smart_chunk_by_paragraphs "aa bb." 1) ≠ "aa bb." ∧
      joinSep "\n\n" (smart_chunk_by_paragraphs "aa bb." 1) ≠ "aa bb." := by decide

/-- C6 amended: for a non-empty input and positive target, no chunk is the
empty string and every chunk respects the target word count unless it
consists of a single sentence; exact coverage holds only when every
blank-line paragraph is non-whitespace and within the target: then joining
the chunks with the paragraph separator reproduces the input exactly. The
original unconditional coverage fails because sentence-splitting of
oversize paragraphs drops the sentence punctuation and whitespace-only
paragraphs are dropped. -/
theorem chunker_properties (text : String) (tw : Nat) (htext : text ≠ "") (htw : 0 < tw) :
    (∀ c ∈ smart_chunk_by_paragraphs text tw,
      c ≠ "" ∧ (wordCount c ≤ tw ∨ (split_into_sentences c).length ≤ 1)) ∧
    ((∀ p ∈ splitNNStr text, strTrim p ≠ "" ∧ wordCount p ≤ tw) →
      joinSep "\n\n" (smart_chunk_by_paragraphs text tw) = text) := by
  refine ⟨?_, smart_chunk_coverage text tw⟩
  intro c hc
  rw [smart_chunk_eq] at hc
  by_cases hfil : (splitNNStr text).filter (fun p => strTrim p ≠ "") = []
  · rw [if_pos hfil] at hc
    have hh := fallback_chunk_mem text tw htext htw c hc
    exact ⟨hh.1, Or.inl hh.2⟩
  · rw [if_neg hfil] at hc
    exact paraLoop_mem tw ((splitNNStr text).filter (fun p => strTrim p ≠ "")) [] 0
      (fun p hp => by simpa using (List.mem_filter.mp hp).2) (by simp) rfl (by omega)
      c hc

/-- C6 amended witness at a concrete two-paragraph text. -/
theorem chunker_properties_witness :
    ("Hello there.\n\nBye now." : String) ≠ "" ∧ (0 : Nat) < 10 ∧
      ((∀ c ∈ smart_chunk_by_paragraphs "Hello there.\n\nBye now." 10,
        c ≠ "" ∧ (wordCount c ≤ 10 ∨ (split_into_sentences c).length ≤ 1)) ∧
      ((∀ p ∈ splitNNStr "Hello there.\n\nBye now.",
          strTrim p ≠ "" ∧ wordCount p ≤ 10) →
        joinSep "\n\n" (smart_chunk_by_paragraphs "Hello there.\n\nBye now." 10) =
          "Hello there.\n\nBye now.")) ∧
      joinSep "\n\n" (smart_chunk_by_paragraphs "Hello there.\n\nBye now." 10) =
        "Hello there.\n\nBye now." :=
  ⟨by decide, by decide,
    chunker_properties "Hello there.\n\nBye now." 10 (by decide) (by decide),
    (chunker_properties "Hello there.\n\nBye now." 10 (by decide) (by decide)).2
      (by decide)⟩

example : splitWhitespaceStr "hello  big world" = ["hello", "big", "world"] := by decide
example : wordCount "a b c" = 3 := by decide
example : strTrim "  ab c  " = "ab c" := by decide
example : containsSubstr "the gutenberg.org site" "gutenberg.org" = true := by decide
example : containsSubstr "plain text" "gutenberg.org" = false := by decide
example : linesOf "a\nb\n" = ["a", "b"] := by decide
example : splitNNStr "a\n\n\nb" = ["a", "\nb"] := by decide
example : listChunks 2 [1, 2, 3, 4, 5] = [[1, 2], [3, 4], [5]] := by decide
example : parseI32 "-42" = some (-42) := by decide
example : parseI32 "12x" = none := by decide
example : parseI32 "4294967296" = none := by decide
